import Mathlib

/-!
# Verification of the rust-graph-layouts layout engine

Shallow embedding of the layout engine of `rust-graph-layouts` and proofs
about it.  The Rust data model (`src/shared/src/types.rs`) and the six layout
algorithms are translated into Lean definitions:

* `f64` values are modelled as real numbers (`ℝ`); machine floating point
  rounding is outside the scope of these statements.
* `HashMap<Id, Node>` / `HashMap<Id, Edge>` are modelled as lists in a fixed
  enumeration order (the specification pins behaviour to the enumeration
  order of nodes and edges); lookups by id take the first match, which agrees
  with the map semantics because map keys are unique.
* In-place mutation (`&mut Graph`) is modelled by state passing: an engine
  returns the final graph.  A Rust `Result<(), String>` together with the
  borrowed graph becomes the pair `Except String Unit × Graph`.
* `rand::random::<f64>()` (the process-global thread-local generator, which
  takes no seed from the caller) is modelled by an ambient stream
  `r : Nat → ℝ` together with a cursor `k : Nat`; each draw reads `r k` and
  advances the cursor.
-/

namespace GraphLayouts

/-- `MetadataValue` from `src/shared/src/types.rs` (string / number / bool). -/
inductive MetadataValue where
  | string (s : String)
  | number (x : ℝ)
  | boolean (b : Bool)

/-- `Node` from `src/shared/src/types.rs`: id, optional 2D position, metadata map. -/
structure Node where
  id : String
  position : Option (ℝ × ℝ)
  metadata : List (String × MetadataValue)

/-- `Edge` from `src/shared/src/types.rs`: id, source id, target id, metadata map. -/
structure Edge where
  id : String
  source : String
  target : String
  metadata : List (String × MetadataValue)

/-- `Graph` from `src/shared/src/types.rs`: node map and edge map, modelled as
lists in enumeration order. -/
structure Graph where
  nodes : List Node
  edges : List Edge

/-- The list of node ids of a graph, in enumeration order (`graph.nodes.keys()`). -/
def Graph.nodeIds (g : Graph) : List String := g.nodes.map Node.id

/-- `LayoutComputeLocation` from `types.rs`. -/
inductive LayoutComputeLocation where
  | frontend
  | backend

/-- `BaseLayoutOptions` from `types.rs`. -/
structure BaseLayoutOptions where
  animate : Bool
  animation_duration : Nat
  fit : Bool
  padding : Nat
  compute_location : LayoutComputeLocation

/-- `BaseLayoutOptions::default()` from `types.rs`. -/
def BaseLayoutOptions.default : BaseLayoutOptions :=
  { animate := true, animation_duration := 500, fit := true, padding := 30,
    compute_location := .frontend }

/-- `FcoseLayoutOptions` from `types.rs`.  Note: there is no seed field. -/
structure FcoseLayoutOptions where
  base : BaseLayoutOptions
  quality : String
  node_repulsion : ℝ
  ideal_edge_length : ℝ
  node_overlap : ℝ

/-- `FcoseLayoutOptions::default()` from `types.rs`. -/
def FcoseLayoutOptions.default : FcoseLayoutOptions :=
  { base := BaseLayoutOptions.default, quality := "default",
    node_repulsion := 4500, ideal_edge_length := 50, node_overlap := 10 }

/-- `CoseBilkentLayoutOptions` from `types.rs`. -/
structure CoseBilkentLayoutOptions where
  base : BaseLayoutOptions
  node_repulsion : ℝ
  node_overlap : ℝ
  ideal_edge_length : ℝ

/-- `CoseBilkentLayoutOptions::default()` from `types.rs`. -/
def CoseBilkentLayoutOptions.default : CoseBilkentLayoutOptions :=
  { base := BaseLayoutOptions.default, node_repulsion := 4500,
    node_overlap := 10, ideal_edge_length := 50 }

/-- `CiseLayoutOptions` from `types.rs`. -/
structure CiseLayoutOptions where
  base : BaseLayoutOptions
  clusters : List (List String)
  circle_spacing : ℝ
  node_spacing : ℝ

/-- `CiseLayoutOptions::default()` from `types.rs`. -/
def CiseLayoutOptions.default : CiseLayoutOptions :=
  { base := BaseLayoutOptions.default, clusters := [], circle_spacing := 20,
    node_spacing := 10 }

/-- `ConcentricLayoutOptions` from `types.rs`. -/
structure ConcentricLayoutOptions where
  base : BaseLayoutOptions
  min_node_spacing : ℝ
  concentric_by : String
  level_width : ℝ

/-- `ConcentricLayoutOptions::default()` from `types.rs`. -/
def ConcentricLayoutOptions.default : ConcentricLayoutOptions :=
  { base := BaseLayoutOptions.default, min_node_spacing := 10,
    concentric_by := "degree", level_width := 100 }

/-- `KlayLayeredLayoutOptions` from `types.rs`. -/
structure KlayLayeredLayoutOptions where
  base : BaseLayoutOptions
  layer_spacing : ℝ
  node_spacing : ℝ
  node_placement : String
  cross_minimization : String
  cycle_breaking : String
  edge_routing : String
  merge_edges : Bool

/-- `KlayLayeredLayoutOptions::default()` from `types.rs`. -/
def KlayLayeredLayoutOptions.default : KlayLayeredLayoutOptions :=
  { base := BaseLayoutOptions.default, layer_spacing := 50, node_spacing := 20,
    node_placement := "BRANDES_KOEPF", cross_minimization := "LAYER_SWEEP",
    cycle_breaking := "GREEDY", edge_routing := "ORTHOGONAL", merge_edges := false }

/-- `DagreLayoutOptions` from `types.rs`. -/
structure DagreLayoutOptions where
  base : BaseLayoutOptions
  node_separation : ℝ
  rank_separation : ℝ
  rank_direction : String
  align : String
  acyclic : Bool
  ranker : String

/-- `DagreLayoutOptions::default()` from `types.rs`. -/
def DagreLayoutOptions.default : DagreLayoutOptions :=
  { base := BaseLayoutOptions.default, node_separation := 50,
    rank_separation := 50, rank_direction := "TB", align := "UL",
    acyclic := true, ranker := "network-simplex" }

/-- `LayoutAlgorithm` from `types.rs`: tagged union of the six engines. -/
inductive LayoutAlgorithm where
  | fcose (options : FcoseLayoutOptions)
  | coseBilkent (options : CoseBilkentLayoutOptions)
  | cise (options : CiseLayoutOptions)
  | concentric (options : ConcentricLayoutOptions)
  | klayLayered (options : KlayLayeredLayoutOptions)
  | dagre (options : DagreLayoutOptions)

/-! ## Shared helpers -/

/-- Degree of a node id: number of edges incident to it
(`graph.edges.values().filter(|e| e.source == *id || e.target == *id).count()`,
as in `concentric.rs` and `cise.rs`). -/
def nodeDegree (g : Graph) (id : String) : Nat :=
  (g.edges.filter (fun e => e.source = id || e.target = id)).length

/-- Stable insertion of an element into a (key-)sorted list: the element goes
after all entries with a key `≤` its own.  Used to model Rust's stable
`sort_by_key`. -/
def stableInsertByKey (key : α → Nat) (x : α) : List α → List α
  | [] => [x]
  | y :: ys => if key x < key y then x :: y :: ys else y :: stableInsertByKey key x ys

/-- Stable sort by a `Nat` key, modelling Rust's stable `slice::sort_by_key`:
elements are inserted in their original order, each going after every element
with a key `≤` its own, so equal-key runs keep their relative order. -/
def stableSortByKey (key : α → Nat) (l : List α) : List α :=
  l.foldl (fun acc x => stableInsertByKey key x acc) []

/-- Set the position of every node with the given id (models
`graph.nodes.get_mut(node_id)` followed by a position write; map keys are
unique, so at most one node is affected in a map-backed graph). -/
def setNodePosition (nodes : List Node) (id : String) (p : ℝ × ℝ) : List Node :=
  nodes.map (fun n => if n.id = id then { n with position := some p } else n)

/-- Replace the element at index `i` (out-of-range indices leave the list
unchanged), mirroring an indexed in-place write to a `Vec`. -/
def listModify (l : List α) (i : Nat) (f : α → α) : List α :=
  match l, i with
  | [], _ => []
  | x :: xs, 0 => f x :: xs
  | x :: xs, n + 1 => x :: listModify xs n f

/-! ## Shared layered machinery

`dagre.rs` and `klay.rs` contain textually identical implementations of
`break_cycles`, `minimize_crossings` and `count_crossings`, and their layer
construction loops perform the same iteration (expand the current layer into
the set of not-yet-assigned edge targets, in edge order, until the next layer
comes out empty).  The shared parts are defined once here. -/

namespace Layered

/-- Root detection shared by both rankers: node ids with no incoming edge, in
node enumeration order (`graph.nodes.keys().filter(|id| !graph.edges.values().any(|e| e.target == **id))`). -/
def rootsBase (g : Graph) : List String :=
  (g.nodes.filter (fun n => !(g.edges.any (fun e => e.target == n.id)))).map Node.id

/-- The `if roots.is_empty() && !graph.nodes.is_empty()` fallback: pick the
first node as the only root. -/
def withFallbackRoot (g : Graph) (roots : List String) : List String :=
  if roots.isEmpty then
    match g.nodes with
    | [] => roots
    | n :: _ => [n.id]
  else roots

/-- Process one node `u` of the current layer: scan all edges in order and
push every target of `u` that is not yet assigned
(`if edge.source == *node_id && !assigned.contains(&edge.target)`).
State is `(assigned, next_layer)`. -/
def expandNode (u : String) : List Edge → List String × List String →
    List String × List String
  | [], st => st
  | e :: es, st =>
      if e.source = u ∧ e.target ∉ st.1 then
        expandNode u es (e.target :: st.1, st.2 ++ [e.target])
      else
        expandNode u es st

/-- Process the whole current layer in order, threading `(assigned, next)`. -/
def expandLayer (edges : List Edge) : List String → List String × List String →
    List String × List String
  | [], st => st
  | u :: us, st => expandLayer edges us (expandNode u edges st)

/-- Targets of edges that are not yet assigned; the cardinality of this set is
the termination measure of the layer-building loop. -/
def unassignedTargets (edges : List Edge) (assigned : List String) : Finset String :=
  ((edges.map Edge.target).filter (fun t => t ∉ assigned)).toFinset

theorem expandNode_assigned_mono {u : String} :
    ∀ (es : List Edge) (st : List String × List String) (x : String),
      x ∈ st.1 → x ∈ (expandNode u es st).1 := by
  intro es
  induction es with
  | nil => intro st x hx; simpa [expandNode] using hx
  | cons e es ih =>
      intro st x hx
      rw [expandNode]
      split
      · exact ih _ x (List.mem_cons_of_mem _ hx)
      · exact ih _ x hx

theorem expandNode_assigned_sub {u : String} :
    ∀ (es : List Edge) (st : List String × List String) (x : String),
      x ∈ (expandNode u es st).1 →
      x ∈ st.1 ∨ ∃ e ∈ es, e.source = u ∧ e.target = x := by
  intro es
  induction es with
  | nil => intro st x hx; left; simpa [expandNode] using hx
  | cons e es ih =>
      intro st x hx
      rw [expandNode] at hx
      split at hx
      next hcond =>
        rcases ih _ x hx with h | ⟨e', he', hs, ht⟩
        · rcases List.mem_cons.mp h with h | h
          · exact Or.inr ⟨e, List.mem_cons_self _ _, hcond.1, h.symm⟩
          · exact Or.inl h
        · exact Or.inr ⟨e', List.mem_cons_of_mem _ he', hs, ht⟩
      next =>
        rcases ih _ x hx with h | ⟨e', he', hs, ht⟩
        · exact Or.inl h
        · exact Or.inr ⟨e', List.mem_cons_of_mem _ he', hs, ht⟩

theorem expandNode_next_spec {u : String} :
    ∀ (es : List Edge) (st : List String × List String) (x : String),
      x ∈ (expandNode u es st).2 →
      x ∈ st.2 ∨ (x ∈ (expandNode u es st).1 ∧ x ∉ st.1 ∧
        ∃ e ∈ es, e.source = u ∧ e.target = x) := by
  intro es
  induction es with
  | nil => intro st x hx; left; simpa [expandNode] using hx
  | cons e es ih =>
      intro st x hx
      rw [expandNode] at hx ⊢
      by_cases hcond : e.source = u ∧ e.target ∉ st.1
      · rw [if_pos hcond] at hx ⊢
        rcases ih _ x hx with h | ⟨h1, h2, e', he', hs, ht⟩
        · rcases List.mem_append.mp h with h | h
          · exact Or.inl h
          · -- x is the target just pushed by edge e
            have hx' : x = e.target := by simpa using h
            subst hx'
            exact Or.inr ⟨expandNode_assigned_mono es _ _ (by simp), hcond.2,
              e, List.mem_cons_self _ _, hcond.1, rfl⟩
        · exact Or.inr ⟨h1, fun hc => h2 (List.mem_cons_of_mem _ hc),
            e', List.mem_cons_of_mem _ he', hs, ht⟩
      · rw [if_neg hcond] at hx ⊢
        rcases ih _ x hx with h | ⟨h1, h2, e', he', hs, ht⟩
        · exact Or.inl h
        · exact Or.inr ⟨h1, h2, e', List.mem_cons_of_mem _ he', hs, ht⟩

theorem expandLayer_assigned_mono (edges : List Edge) :
    ∀ (us : List String) (st : List String × List String) (x : String),
      x ∈ st.1 → x ∈ (expandLayer edges us st).1 := by
  intro us
  induction us with
  | nil => intro st x hx; simpa [expandLayer] using hx
  | cons u us ih =>
      intro st x hx
      rw [expandLayer]
      exact ih _ x (expandNode_assigned_mono _ _ x hx)

theorem expandLayer_assigned_sub (edges : List Edge) :
    ∀ (us : List String) (st : List String × List String) (x : String),
      x ∈ (expandLayer edges us st).1 →
      x ∈ st.1 ∨ ∃ e ∈ edges, e.target = x := by
  intro us
  induction us with
  | nil => intro st x hx; left; simpa [expandLayer] using hx
  | cons u us ih =>
      intro st x hx
      rw [expandLayer] at hx
      rcases ih _ x hx with h | h
      · rcases expandNode_assigned_sub edges _ x h with h' | ⟨e, he, _, ht⟩
        · exact Or.inl h'
        · exact Or.inr ⟨e, he, ht⟩
      · exact Or.inr h

theorem expandLayer_next_spec (edges : List Edge) :
    ∀ (us : List String) (st : List String × List String) (x : String),
      x ∈ (expandLayer edges us st).2 →
      x ∈ st.2 ∨ (x ∈ (expandLayer edges us st).1 ∧ x ∉ st.1 ∧
        ∃ e ∈ edges, e.target = x ∧ e.source ∈ us) := by
  intro us
  induction us with
  | nil => intro st x hx; left; simpa [expandLayer] using hx
  | cons u us ih =>
      intro st x hx
      rw [expandLayer] at hx ⊢
      rcases ih _ x hx with h | ⟨h1, h2, e, he, ht, hs⟩
      · rcases expandNode_next_spec edges _ x h with h' | ⟨h1, h2, e, he, hsrc, ht⟩
        · exact Or.inl h'
        · refine Or.inr ⟨expandLayer_assigned_mono edges us _ x h1, h2,
            e, he, ht, by simp [hsrc]⟩
      · refine Or.inr ⟨h1, fun hc => h2 (expandNode_assigned_mono _ _ x hc),
          e, he, ht, List.mem_cons_of_mem _ hs⟩

theorem unassignedTargets_decreases (edges : List Edge)
    (assigned current : List String)
    (h : (expandLayer edges current (assigned, [])).2 ≠ []) :
    (unassignedTargets edges (expandLayer edges current (assigned, [])).1).card <
      (unassignedTargets edges assigned).card := by
  obtain ⟨x, hx⟩ := List.exists_mem_of_ne_nil _ h
  rcases expandLayer_next_spec edges current (assigned, []) x hx with h' | ⟨h1, h2, e, he, ht, _⟩
  · simp at h'
  apply Finset.card_lt_card
  constructor
  · intro t ht'
    simp only [unassignedTargets, List.mem_toFinset, List.mem_filter,
      decide_eq_true_eq] at ht' ⊢
    exact ⟨ht'.1, fun hc => ht'.2 (expandLayer_assigned_mono edges current _ t hc)⟩
  · intro hsub
    have hxo : x ∈ unassignedTargets edges assigned := by
      simp only [unassignedTargets, List.mem_toFinset, List.mem_filter,
        decide_eq_true_eq]
      exact ⟨List.mem_map.mpr ⟨e, he, ht⟩, h2⟩
    have := hsub hxo
    simp only [unassignedTargets, List.mem_toFinset, List.mem_filter,
      decide_eq_true_eq] at this
    exact this.2 h1

/-- The layer-building loop shared by `dagre.rs` (`longest_path_ranking`,
`while current_layer < layers.len()`) and `klay.rs` (`assign_layers`,
`while !current_layer.is_empty()`): expand the current layer into the next,
stop when the next layer comes out empty.  Returns the list of layers built
after the initial one, together with the final assigned set. -/
def bfsAux (edges : List Edge) (assigned current : List String) :
    List (List String) × List String :=
  let st := expandLayer edges current (assigned, [])
  if h : st.2 = [] then ([], st.1)
  else
    let rest := bfsAux edges st.1 st.2
    (st.2 :: rest.1, rest.2)
termination_by (unassignedTargets edges assigned).card
decreasing_by exact unassignedTargets_decreases edges assigned current h

/-- Index of the first layer containing `v`
(`layers.iter().position(|layer| layer.contains(&v))`). -/
def layerIdxOf (layers : List (List String)) (v : String) : Option Nat :=
  layers.findIdx? (fun layer => layer.contains v)

/-- `break_cycles` (identical in `dagre.rs` and `klay.rs`): collect the ids of
edges whose source lies in a strictly later layer than their target, then swap
the endpoints of each collected edge. -/
def break_cycles (g : Graph) (layers : List (List String)) : Graph :=
  let edges_to_reverse : List String :=
    (g.edges.filter (fun e =>
      match layerIdxOf layers e.source, layerIdxOf layers e.target with
      | some sl, some tl => decide (sl > tl)
      | _, _ => false)).map Edge.id
  { g with edges := g.edges.map (fun e =>
      if edges_to_reverse.contains e.id then
        { e with source := e.target, target := e.source }
      else e) }

/-- `count_crossings` (identical in `dagre.rs` and `klay.rs`). -/
def count_crossings (g : Graph) (layer1 layer2 : List String) : Nat :=
  layer1.enum.foldl (fun acc p1 =>
    (layer1.enum.drop (p1.1 + 1)).foldl (fun acc2 p2 =>
      g.edges.foldl (fun acc3 e1 =>
        if e1.source = p1.2 then
          g.edges.foldl (fun acc4 e2 =>
            if e2.source = p2.2 then
              match layer2.findIdx? (fun n => n == e1.target),
                    layer2.findIdx? (fun n => n == e2.target) with
              | some j1, some j2 =>
                  if (p1.1 < p2.1 ∧ j1 > j2) ∨ (p1.1 > p2.1 ∧ j1 < j2) then
                    acc4 + 1
                  else acc4
              | _, _ => acc4
            else acc4) acc3
        else acc3) acc2) acc) 0

/-- Swap the elements at positions `j` and `j+1` (`next_layer.swap(j, j+1)`). -/
def swapAdj : List α → Nat → List α
  | x :: y :: rest, 0 => y :: x :: rest
  | x :: rest, n + 1 => x :: swapAdj rest n
  | l, _ => l

/-- One step of the `for j in 0..len-1` pass of `minimize_crossings`: swap
positions `j` and `j+1`, keep the swap exactly when it strictly reduces the
crossing count (`best_crossings` always equals the crossing count of the
current arrangement), and record whether any swap was kept. -/
def mcStep (cnt : List String → Nat) (st : List String × Bool) (j : Nat) :
    List String × Bool :=
  let c := swapAdj st.1 j
  if cnt c < cnt st.1 then (c, true) else st

/-- One full pass of adjacent-swap attempts over the lower layer. -/
def mcSweep (cnt : List String → Nat) (l : List String) : List String × Bool :=
  (List.range (l.length - 1)).foldl (mcStep cnt) (l, false)

theorem mcFold_spec (cnt : List String → Nat) :
    ∀ (js : List Nat) (st : List String × Bool),
      cnt ((js.foldl (mcStep cnt) st).1) ≤ cnt st.1 ∧
      (st.2 = true → (js.foldl (mcStep cnt) st).2 = true) ∧
      ((js.foldl (mcStep cnt) st).2 = false →
        (js.foldl (mcStep cnt) st).1 = st.1) ∧
      (st.2 = false → (js.foldl (mcStep cnt) st).2 = true →
        cnt ((js.foldl (mcStep cnt) st).1) < cnt st.1) := by
  intro js
  induction js with
  | nil =>
      intro st
      refine ⟨le_refl _, fun h => h, fun _ => rfl, fun h1 h2 => ?_⟩
      simp only [List.foldl_nil] at h2
      rw [h1] at h2; cases h2
  | cons j js ih =>
      intro st
      simp only [List.foldl_cons]
      by_cases hlt : cnt (swapAdj st.1 j) < cnt st.1
      · have hstep : mcStep cnt st j = (swapAdj st.1 j, true) := by
          simp [mcStep, hlt]
        rw [hstep]
        have iha := (ih (swapAdj st.1 j, true)).1
        have ihb := (ih (swapAdj st.1 j, true)).2.1 rfl
        refine ⟨le_trans iha (le_of_lt hlt), fun _ => ihb, ?_, ?_⟩
        · intro hfalse; rw [ihb] at hfalse; cases hfalse
        · intro _ _; exact lt_of_le_of_lt iha hlt
      · have hstep : mcStep cnt st j = st := by
          simp [mcStep, hlt]
        rw [hstep]
        exact ih st

theorem mcSweep_lt (cnt : List String → Nat) (l : List String)
    (h : (mcSweep cnt l).2 = true) : cnt (mcSweep cnt l).1 < cnt l := by
  have := (mcFold_spec cnt (List.range (l.length - 1)) (l, false)).2.2.2
  exact this rfl h

theorem mcSweep_eq_of_flag_false (cnt : List String → Nat) (l : List String)
    (h : (mcSweep cnt l).2 = false) : (mcSweep cnt l).1 = l := by
  exact (mcFold_spec cnt (List.range (l.length - 1)) (l, false)).2.2.1 h

/-- The `while improved` loop of `minimize_crossings`: repeat sweeps until a
sweep keeps no swap. -/
def mcLoop (cnt : List String → Nat) (l : List String) : List String :=
  let s := mcSweep cnt l
  if h : s.2 = true then mcLoop cnt s.1 else s.1
termination_by cnt l
decreasing_by exact mcSweep_lt cnt l h

/-- `minimize_crossings` (identical in `dagre.rs` and `klay.rs`): for each
adjacent pair of layers in order, optimise the lower layer against the (final)
upper layer. -/
def minimize_crossings (g : Graph) : List (List String) → List (List String)
  | u :: l :: rest =>
      u :: minimize_crossings g (mcLoop (count_crossings g u) l :: rest)
  | ls => ls
termination_by ls => ls.length

end Layered

/-! ## Dagre engine (`src/shared/src/layout/algorithms/dagre.rs`) -/

namespace Dagre

/-- `longest_path_ranking` from `dagre.rs`: layer 0 is the root list (with the
fallback single root), subsequent layers are built by `Layered.bfsAux`, and
any nodes never assigned (disconnected or in cycles) form one final extra
layer. -/
def longest_path_ranking (g : Graph) : List (List String) :=
  let roots := Layered.withFallbackRoot g (Layered.rootsBase g)
  let r := Layered.bfsAux g.edges roots roots
  let layers := roots :: r.1
  let remaining := g.nodeIds.filter (fun id => !(r.2.contains id))
  if remaining.isEmpty then layers else layers ++ [remaining]

/-- Lookup in the `node_to_layer` map; entries pushed later shadow earlier
ones, as `HashMap::insert` overwrites. -/
def rankLookup (m : List (String × Nat)) (v : String) : Option Nat :=
  (m.find? (fun p => p.1 == v)).map Prod.snd

/-- Build the initial `node_to_layer` map of `optimize_ranking`. -/
def buildRankMap (layers : List (List String)) : List (String × Nat) :=
  layers.enum.foldl
    (fun m li => li.2.foldl (fun m' id => (id, li.1) :: m') m) []

/-- Sum over all edges incident to `v` of the absolute layer-index difference,
taking `v`'s own layer to be `vLayer` and the other endpoint's layer from the
map (edges whose other endpoint is missing from the map contribute nothing),
exactly as the `current_sum` / `new_sum` loops of `optimize_ranking`. -/
def edgeLenSum (edges : List Edge) (m : List (String × Nat)) (v : String)
    (vLayer : Nat) : Nat :=
  edges.foldl (fun acc e =>
    if e.source = v ∨ e.target = v then
      let other := if e.source = v then e.target else e.source
      match rankLookup m other with
      | some ol => acc + (if vLayer > ol then vLayer - ol else ol - vLayer)
      | none => acc
    else acc) 0

/-- The `for new_layer_idx in [layer_idx.saturating_sub(1), layer_idx + 1]`
loop of `optimize_ranking`: the first candidate index that is in range and
strictly decreases the incident edge length sum, if any.  (For `li = 0` the
first candidate equals `li` itself and can never strictly improve.) -/
def moveDest (edges : List Edge) (m : List (String × Nat)) (v : String)
    (li L : Nat) : Option Nat :=
  if li - 1 < L ∧ edgeLenSum edges m v (li - 1) < edgeLenSum edges m v li then
    some (li - 1)
  else if li + 1 < L ∧ edgeLenSum edges m v (li + 1) < edgeLenSum edges m v li then
    some (li + 1)
  else none

theorem moveDest_ne (edges : List Edge) (m : List (String × Nat)) (v : String)
    (li L : Nat) {nl : Nat} (h : moveDest edges m v li L = some nl) : nl ≠ li := by
  unfold moveDest at h
  split at h
  next hc =>
    intro he
    rw [Option.some_inj.mp h, he] at hc
    exact lt_irrefl _ hc.2
  next =>
    split at h
    next hc =>
      intro he
      rw [Option.some_inj.mp h, he] at hc
      exact lt_irrefl _ hc.2
    next => cases h

/-- The inner `while i < layers[layer_idx].len()` loop of `optimize_ranking`:
at each position, try to move the node to an adjacent layer; on a move, delete
it from the current layer, push it at the end of the destination layer, record
the new layer in the map, step the index back by one (when positive) and set
`improved`. -/
def sweepLayer (edges : List Edge) (li : Nat) (layers : List (List String))
    (m : List (String × Nat)) (improved : Bool) (i : Nat) :
    List (List String) × List (String × Nat) × Bool :=
  match hv : (layers.getD li [])[i]? with
  | none => (layers, m, improved)
  | some v =>
    match hm : moveDest edges m v li layers.length with
    | some nl =>
        let layers' := List.modify (fun l => l ++ [v]) nl
          (List.modify (fun l => l.eraseIdx i) li layers)
        sweepLayer edges li layers' ((v, nl) :: m) true ((if i > 0 then i - 1 else i) + 1)
    | none => sweepLayer edges li layers m improved (i + 1)
termination_by (layers.getD li []).length - i
decreasing_by
  · have hlen : i < (layers.getD li []).length := (List.getElem?_eq_some.mp hv).1
    have hne : nl ≠ li := moveDest_ne edges m v li layers.length hm
    have hli : li < layers.length := by
      by_contra hc
      have : layers[li]? = none := List.getElem?_eq_none (by omega)
      simp only [List.getD_eq_getElem?_getD, this, Option.getD_none] at hlen
      simp at hlen
    have hmod : (List.modify (fun l => l ++ [v]) nl
        (List.modify (fun l => l.eraseIdx i) li layers))[li]? =
        Option.map (fun l => l.eraseIdx i) layers[li]? := by
      rw [List.getElem?_modify_ne _ _ hne, List.getElem?_modify_eq]; rfl
    have hgd : layers.getD li [] = layers[li] := by
      simp [List.getD_eq_getElem?_getD, List.getElem?_eq_getElem hli]
    have hlen2 : ((List.modify (fun l => l ++ [v]) nl
        (List.modify (fun l => l.eraseIdx i) li layers)).getD li []).length =
        (layers.getD li []).length - 1 := by
      rw [List.getD_eq_getElem?_getD, hmod, List.getElem?_eq_getElem hli]
      simp only [Option.map_some', Option.getD_some]
      rw [hgd] at hlen ⊢
      exact List.length_eraseIdx_of_lt hlen
    simp only [hlen2]
    split <;> omega
  · have hlen : i < (layers.getD li []).length := (List.getElem?_eq_some.mp hv).1
    omega

/-- One `for layer_idx in 0..layers.len()` pass of `optimize_ranking` (the
number of layers never changes during a pass, as nodes only move between
existing layers). -/
def sweepAll (edges : List Edge) (layers : List (List String))
    (m : List (String × Nat)) : List (List String) × List (String × Nat) × Bool :=
  (List.range layers.length).foldl
    (fun st li => sweepLayer edges li st.1 st.2.1 st.2.2 0) (layers, m, false)

/-- The `while improved` loop of `optimize_ranking`.  The Rust loop terminates
because every committed move strictly decreases the total incident edge length
`Σ_e |rank(source) − rank(target)|`; that total is bounded by
`|edges| · |layers|`, so a fuel of `|edges| · |layers| + 1` passes always
reaches the fixed point reached by the source loop. -/
def optimizeLoop (edges : List Edge) : Nat → List (List String) →
    List (String × Nat) → List (List String)
  | 0, layers, _ => layers
  | fuel + 1, layers, m =>
      let r := sweepAll edges layers m
      if r.2.2 then optimizeLoop edges fuel r.1 r.2.1 else r.1

/-- `optimize_ranking` from `dagre.rs`: hill-climb nodes between adjacent
layers while the incident edge length sum improves. -/
def optimize_ranking (edges : List Edge) (layers : List (List String)) :
    List (List String) :=
  optimizeLoop edges (edges.length * layers.length + 1) layers (buildRankMap layers)

/-- `network_simplex_ranking` from `dagre.rs`: longest-path ranking followed
by `optimize_ranking`. -/
def network_simplex_ranking (g : Graph) : List (List String) :=
  optimize_ranking g.edges (longest_path_ranking g)

/-- `tight_tree_ranking` from `dagre.rs`: longest-path ranking followed by
`compact_layers` (removal of empty layers). -/
def tight_tree_ranking (g : Graph) : List (List String) :=
  (longest_path_ranking g).filter (fun l => !l.isEmpty)

/-- `DagreLayoutEngine::assign_layers`: dispatch on the ranker string, with
silent fallback to longest-path for any unknown value. -/
def assign_layers (options : DagreLayoutOptions) (g : Graph) :
    List (List String) :=
  if options.ranker = "network-simplex" then network_simplex_ranking g
  else if options.ranker = "tight-tree" then tight_tree_ranking g
  else if options.ranker = "longest-path" then longest_path_ranking g
  else longest_path_ranking g

/-- `DagreLayoutEngine::assign_coordinates`. -/
noncomputable def assign_coordinates (options : DagreLayoutOptions) (g : Graph)
    (layers : List (List String)) : Graph :=
  let is_horizontal := options.rank_direction = "LR" ∨ options.rank_direction = "RL"
  let is_reversed := options.rank_direction = "BT" ∨ options.rank_direction = "RL"
  let nodes := layers.enum.foldl
    (fun acc (li : Nat × List String) =>
      let layer_pos : ℝ :=
        if is_reversed then
          ((layers.length - 1 - li.1 : Nat) : ℝ) * options.rank_separation
        else (li.1 : ℝ) * options.rank_separation
      let layer_width : ℝ := ((li.2.length - 1 : Nat) : ℝ) * options.node_separation
      let start_pos := -layer_width / 2
      li.2.enum.foldl
        (fun acc' (ni : Nat × String) =>
          let node_pos := start_pos + (ni.1 : ℝ) * options.node_separation
          let p := if is_horizontal then (layer_pos, node_pos) else (node_pos, layer_pos)
          setNodePosition acc' ni.2 p)
        acc)
    g.nodes
  { g with nodes := nodes }

/-- `DagreLayoutEngine::apply_layout`: rank, break cycles when `acyclic`,
minimise crossings on the (possibly reversed) graph, then assign coordinates.
Every phase returns `Ok`, hence so does the whole pipeline. -/
noncomputable def apply_layout (options : DagreLayoutOptions) (g : Graph) :
    Except String Unit × Graph :=
  let layers := assign_layers options g
  let g1 := if options.acyclic then Layered.break_cycles g layers else g
  let layers2 := Layered.minimize_crossings g1 layers
  (.ok (), assign_coordinates options g1 layers2)

end Dagre

/-! ## KLay engine (`src/src/layout/algorithms/klay.rs`) -/

namespace Klay

/-- The remaining-node loop of `klay.rs`'s `assign_layers`: push each
unassigned node into the last layer, creating a singleton layer when there are
no layers yet. -/
def pushIntoLast (ls : List (List String)) (v : String) : List (List String) :=
  match ls with
  | [] => [[v]]
  | [l] => [l ++ [v]]
  | l :: rest => l :: pushIntoLast rest v

/-- `KlayLayoutEngine::assign_layers` from `klay.rs`.  Its
`while !current_layer.is_empty()` loop pushes the current layer and expands it
into the next one — the same iteration as `Layered.bfsAux`, which stops when
the expansion comes out empty; a nonempty starting layer therefore yields
`roots :: bfsAux …`.  Unassigned nodes are appended into the last layer. -/
def assign_layers (g : Graph) : List (List String) :=
  let roots := Layered.withFallbackRoot g (Layered.rootsBase g)
  if roots.isEmpty then
    -- only possible for the empty graph, which also has no remaining nodes
    g.nodeIds.foldl pushIntoLast []
  else
    let r := Layered.bfsAux g.edges roots roots
    let remaining := g.nodeIds.filter (fun id => !(r.2.contains id))
    remaining.foldl pushIntoLast (roots :: r.1)

/-- `KlayLayoutEngine::assign_coordinates`: `y = layer_idx · layer_spacing`,
`x` starts at `−(len−1)·node_spacing/2` and increments by `node_spacing`. -/
noncomputable def assign_coordinates (options : KlayLayeredLayoutOptions)
    (g : Graph) (layers : List (List String)) : Graph :=
  let nodes := layers.enum.foldl
    (fun acc (li : Nat × List String) =>
      let y : ℝ := (li.1 : ℝ) * options.layer_spacing
      let layer_width : ℝ := ((li.2.length - 1 : Nat) : ℝ) * options.node_spacing
      let start_x := -layer_width / 2
      li.2.enum.foldl
        (fun acc' (ni : Nat × String) =>
          let x := start_x + (ni.1 : ℝ) * options.node_spacing
          setNodePosition acc' ni.2 (x, y))
        acc)
    g.nodes
  { g with nodes := nodes }

/-- `KlayLayoutEngine::apply_layout`: rank, always break cycles, minimise
crossings on the reversed graph, assign coordinates.  Always `Ok`. -/
noncomputable def apply_layout (options : KlayLayeredLayoutOptions) (g : Graph) :
    Except String Unit × Graph :=
  let layers := assign_layers g
  let g1 := Layered.break_cycles g layers
  let layers2 := Layered.minimize_crossings g1 layers
  (.ok (), assign_coordinates options g1 layers2)

end Klay

/-! ## Concentric engine (`src/shared/src/layout/algorithms/concentric.rs`) -/

namespace Concentric

/-- Group a degree-sorted list of `(id, degree)` pairs into runs with equal
degree, mirroring the `current_degree` / `current_level` loop of
`assign_levels` in `concentric.rs`. -/
def groupByDegree : List (String × Nat) → Option Nat → List String →
    List (List String) → List (List String)
  | [], _, currentLevel, levels =>
      if currentLevel.isEmpty then levels else levels ++ [currentLevel]
  | (id, degree) :: rest, currentDegree, currentLevel, levels =>
      match currentDegree with
      | some d =>
          if d = degree then
            groupByDegree rest currentDegree (currentLevel ++ [id]) levels
          else
            groupByDegree rest (some degree) [id]
              (if currentLevel.isEmpty then levels else levels ++ [currentLevel])
      | none =>
          groupByDegree rest (some degree) [id]
            (if currentLevel.isEmpty then levels else levels ++ [currentLevel])

/-- `ConcentricLayoutEngine::assign_levels` from `concentric.rs`:
`"degree"` groups nodes by ascending degree (stable sort), `"id"` puts all
nodes in one level, any other value is an error. -/
def assign_levels (options : ConcentricLayoutOptions) (g : Graph) :
    Except String (List (List String)) :=
  match options.concentric_by with
  | "degree" =>
      let node_degrees : List (String × Nat) :=
        g.nodeIds.map (fun id => (id, nodeDegree g id))
      let sorted := stableSortByKey Prod.snd node_degrees
      .ok (groupByDegree sorted none [] [])
  | "id" => .ok [g.nodeIds]
  | _ => .error ("Unsupported concentric_by value: " ++ options.concentric_by)

/-- Set the position of every node with the given id (models
`graph.nodes.get_mut(node_id)` followed by a position write; map keys are
unique, so at most one node is affected in a map-backed graph). -/
def setNodePosition (nodes : List Node) (id : String) (p : ℝ × ℝ) : List Node :=
  nodes.map (fun n => if n.id = id then { n with position := some p } else n)

/-- `ConcentricLayoutEngine::position_nodes` from `concentric.rs`: level `i`
is placed on the circle of radius `(i+1) * level_width`, nodes equally spaced
by angle in level order. -/
noncomputable def position_nodes (options : ConcentricLayoutOptions) (g : Graph)
    (levels : List (List String)) : Graph :=
  let nodes := levels.enum.foldl
    (fun acc (lvl : Nat × List String) =>
      let radius : ℝ := ((lvl.1 + 1 : Nat) : ℝ) * options.level_width
      let angle_step : ℝ := 2 * Real.pi / (lvl.2.length : ℝ)
      lvl.2.enum.foldl
        (fun acc' (entry : Nat × String) =>
          let angle := angle_step * (entry.1 : ℝ)
          setNodePosition acc' entry.2 (radius * Real.cos angle, radius * Real.sin angle))
        acc)
    g.nodes
  { g with nodes := nodes }

/-- `ConcentricLayoutEngine::apply_layout` from `concentric.rs`.  The error of
`assign_levels` is returned before any mutation, so the graph component is the
input graph unchanged on the error path. -/
noncomputable def apply_layout (options : ConcentricLayoutOptions) (g : Graph) :
    Except String Unit × Graph :=
  match assign_levels options g with
  | .error e => (.error e, g)
  | .ok levels => (.ok (), position_nodes options g levels)

end Concentric

/-! ## Force-directed core

`fcose.rs` and `cose_bilkent.rs` contain textually identical implementations
of `calculate_repulsion`, `calculate_attraction`, `apply_forces` and
`initialize_positions`; they are defined once here, parameterised by the
option values they read. -/

namespace ForceCore

/-- `node.position.unwrap_or((0.0, 0.0))`. -/
def posOrZero (n : Node) : ℝ × ℝ := n.position.getD (0, 0)

/-- Position of the node at index `i` (in range in every use). -/
def posAt (nodes : List Node) (i : Nat) : ℝ × ℝ :=
  match nodes[i]? with
  | some n => posOrZero n
  | none => (0, 0)

/-- Contribution of the ordered pair `(i, j)` to `forces[i]` in
`calculate_repulsion`: zero under the `distance_squared < 0.1` guard,
otherwise the inverse-square force `(C/d²) · (pᵢ−pⱼ)/√d²`. -/
noncomputable def pairRepulsion (c : ℝ) (pa pb : ℝ × ℝ) : ℝ × ℝ :=
  let dx := pa.1 - pb.1
  let dy := pa.2 - pb.2
  let d2 := dx * dx + dy * dy
  if d2 < 0.1 then (0, 0)
  else (c / d2 * dx / Real.sqrt d2, c / d2 * dy / Real.sqrt d2)

/-- `calculate_repulsion`: for every `i`, sum the pair contributions over all
`j ≠ i` in index order. -/
noncomputable def calculate_repulsion (c : ℝ) (nodes : List Node) :
    List (ℝ × ℝ) :=
  (List.range nodes.length).map (fun i =>
    (List.range nodes.length).foldl
      (fun acc j =>
        if j = i then acc
        else
          let q := pairRepulsion c (posAt nodes i) (posAt nodes j)
          (acc.1 + q.1, acc.2 + q.2))
      (0, 0))

/-- `id_to_index` lookup.  The Rust map is filled by ascending index with
overwrite semantics; node ids are unique map keys, so the first matching index
is the map entry. -/
def idIndexOf (nodes : List Node) (id : String) : Option Nat :=
  nodes.findIdx? (fun n => n.id == id)

/-- `calculate_attraction`: fold over the edges, skipping edges with an
unknown endpoint and edges shorter than the `0.1` guard; otherwise apply the
spring force `(d − k)/3` to the source and its opposite to the target. -/
noncomputable def calculate_attraction (k : ℝ) (nodes : List Node)
    (edges : List Edge) : List (ℝ × ℝ) :=
  edges.foldl
    (fun forces e =>
      match idIndexOf nodes e.source, idIndexOf nodes e.target with
      | some si, some ti =>
          let sp := posAt nodes si
          let tp := posAt nodes ti
          let dx := tp.1 - sp.1
          let dy := tp.2 - sp.2
          let dist := Real.sqrt (dx * dx + dy * dy)
          if dist < 0.1 then forces
          else
            let f := (dist - k) / 3
            let fx := f * dx / dist
            let fy := f * dy / dist
            List.modify (fun p => (p.1 - fx, p.2 - fy)) ti
              (List.modify (fun p => (p.1 + fx, p.2 + fy)) si forces)
      | _, _ => forces)
    (List.replicate nodes.length (0, 0))

/-- `apply_forces`: displace every node by `damping · force`, `damping = 0.1`;
nodes beyond the force vector's length are left unchanged. -/
noncomputable def apply_forces (nodes : List Node) (forces : List (ℝ × ℝ)) :
    List Node :=
  nodes.enum.map (fun (p : Nat × Node) =>
    match forces[p.1]? with
    | some f =>
        let cur := posOrZero p.2
        { p.2 with position := some (cur.1 + f.1 * 0.1, cur.2 + f.2 * 0.1) }
    | none => p.2)

/-- One iteration of the force loop: repulsion plus attraction, applied with
damping. -/
noncomputable def forceIteration (c k : ℝ) (edges : List Edge)
    (nodes : List Node) : List Node :=
  let rep := calculate_repulsion c nodes
  let att := calculate_attraction k nodes edges
  let combined := (List.range nodes.length).map (fun i =>
    ((rep.getD i (0, 0)).1 + (att.getD i (0, 0)).1,
     (rep.getD i (0, 0)).2 + (att.getD i (0, 0)).2))
  apply_forces nodes combined

/-- The fixed-count force loop. -/
noncomputable def iterateForces (c k : ℝ) (edges : List Edge) :
    Nat → List Node → List Node
  | 0, nodes => nodes
  | m + 1, nodes => iterateForces c k edges m (forceIteration c k edges nodes)

/-- `initialize_positions`: every node without a position is placed at a
random angle (`rand · 2π`) and distance (`rand · 100`) from the origin; each
`rand::random::<f64>()` call reads the ambient stream and advances the
cursor. -/
noncomputable def init_positions (r : Nat → ℝ) :
    List Node → Nat → List Node × Nat
  | [], k => ([], k)
  | n :: ns, k =>
      match n.position with
      | some _ =>
          let rest := init_positions r ns k
          (n :: rest.1, rest.2)
      | none =>
          let angle := r k * 2 * Real.pi
          let dist := r (k + 1) * 100
          let pos := some (dist * Real.cos angle, dist * Real.sin angle)
          let n' := { n with position := pos }
          let rest := init_positions r ns (k + 2)
          (n' :: rest.1, rest.2)

/-- Overwrite the position of the node at index `i`. -/
def setIdxPos (nodes : List Node) (i : Nat) (p : ℝ × ℝ) : List Node :=
  List.modify (fun n => { n with position := some p }) i nodes

/-- Inner body of `remove_overlaps` for one pair `(i, j)`.  The distance test
uses the position of node `i` read at the top of the `i` iteration (`posI0`,
which can be stale after earlier moves in the same iteration, exactly as in
the source), while the actual move re-reads both positions. -/
noncomputable def overlapStep (minD : ℝ) (r : Nat → ℝ) (i : Nat)
    (posI0 : ℝ × ℝ) (st : List Node × Nat × Bool) (j : Nat) :
    List Node × Nat × Bool :=
  let nodes := st.1
  let k := st.2.1
  let posJ := posAt nodes j
  let dx := posJ.1 - posI0.1
  let dy := posJ.2 - posI0.2
  let dist := Real.sqrt (dx * dx + dy * dy)
  if dist < minD then
    let force := minD - dist
    let draws : (ℝ × ℝ) × Nat :=
      if dist > 0.1 then ((force * dx / dist, force * dy / dist), k)
      else ((r k * 2 - 1, r (k + 1) * 2 - 1), k + 2)
    let pI := posAt nodes i
    let pJ := posAt nodes j
    let nodes1 := setIdxPos nodes i
      (pI.1 - draws.1.1 / 2, pI.2 - draws.1.2 / 2)
    let nodes2 := setIdxPos nodes1 j
      (pJ.1 + draws.1.1 / 2, pJ.2 + draws.1.2 / 2)
    (nodes2, draws.2, true)
  else st

/-- One full `for i … for j in i+1…` pass of `remove_overlaps`. -/
noncomputable def overlapPass (minD : ℝ) (r : Nat → ℝ) (n : Nat)
    (st : List Node × Nat) : List Node × Nat × Bool :=
  (List.range n).foldl
    (fun acc i =>
      let posI0 := posAt acc.1 i
      ((List.range n).drop (i + 1)).foldl (overlapStep minD r i posI0) acc)
    (st.1, st.2, false)

/-- The `while overlaps_exist && iteration < 50` loop of `remove_overlaps`. -/
noncomputable def overlapLoop (minD : ℝ) (r : Nat → ℝ) (n : Nat) :
    Nat → List Node × Nat → List Node × Nat
  | 0, st => st
  | fuel + 1, st =>
      let res := overlapPass minD r n st
      if res.2.2 then overlapLoop minD r n fuel (res.1, res.2.1) else (res.1, res.2.1)

/-- `remove_overlaps` (present in `fcose.rs` only): `min_distance =
2·10·(1 − node_overlap/100)`, at most 50 passes. -/
noncomputable def remove_overlaps (node_overlap : ℝ) (r : Nat → ℝ)
    (nodes : List Node) (k : Nat) : List Node × Nat :=
  let min_distance : ℝ := 10 * 2 * (1 - node_overlap / 100)
  overlapLoop min_distance r nodes.length 50 (nodes, k)

end ForceCore

/-! ## fCoSE engine (`src/shared/src/layout/algorithms/fcose.rs`) -/

namespace Fcose

/-- The iteration count of `FcoseLayoutEngine::apply_layout`: the literal
`let max_iterations = 50;` — the `quality` option is never read. -/
def max_iterations (_options : FcoseLayoutOptions) : Nat := 50

/-- `FcoseLayoutEngine::apply_layout`: initialise unset positions from the
ambient random stream, run the fixed-count force loop, then remove
overlaps. -/
noncomputable def apply_layout (options : FcoseLayoutOptions) (g : Graph)
    (r : Nat → ℝ) (k : Nat) : Except String Unit × Graph × Nat :=
  let ini := ForceCore.init_positions r g.nodes k
  let ns2 := ForceCore.iterateForces options.node_repulsion
    options.ideal_edge_length g.edges (max_iterations options) ini.1
  let ov := ForceCore.remove_overlaps options.node_overlap r ns2 ini.2
  (.ok (), { g with nodes := ov.1 }, ov.2)

end Fcose

/-! ## CoSE-Bilkent engine (`src/shared/src/layout/algorithms/cose_bilkent.rs`) -/

namespace CoseBilkent

/-- The iteration count of `CoseBilkentLayoutEngine::apply_layout`: the
literal `let max_iterations = 50;`. -/
def max_iterations (_options : CoseBilkentLayoutOptions) : Nat := 50

/-- `CoseBilkentLayoutEngine::apply_layout`: initialise unset positions, run
the fixed-count force loop; no overlap-removal post-pass. -/
noncomputable def apply_layout (options : CoseBilkentLayoutOptions) (g : Graph)
    (r : Nat → ℝ) (k : Nat) : Except String Unit × Graph × Nat :=
  let ini := ForceCore.init_positions r g.nodes k
  let ns2 := ForceCore.iterateForces options.node_repulsion
    options.ideal_edge_length g.edges (max_iterations options) ini.1
  (.ok (), { g with nodes := ns2 }, ini.2)

end CoseBilkent

/-! ## CiSE engine (`src/shared/src/layout/algorithms/cise.rs`) -/

namespace Cise

/-- `CiseLayoutEngine::arrange_circle`: all nodes equally spaced on one circle
of the given radius, in enumeration order. -/
noncomputable def arrange_circle (nodes : List Node) (radius : ℝ) : List Node :=
  if nodes.length = 0 then nodes
  else
    let angle_step : ℝ := 2 * Real.pi / (nodes.length : ℝ)
    nodes.enum.map (fun (p : Nat × Node) =>
      let angle := angle_step * (p.1 : ℝ)
      let pos := some (radius * Real.cos angle, radius * Real.sin angle)
      { p.2 with position := pos })

/-- `CiseLayoutEngine::arrange_clusters`: no clusters → one circle of radius
100; otherwise each nonempty cluster on its own circle of radius 100 around a
center on the outer circle of radius `200 + circle_spacing`, and nodes in no
cluster on a circle of radius `outer + 100`. -/
noncomputable def arrange_clusters (options : CiseLayoutOptions) (g : Graph) :
    List Node :=
  if options.clusters.isEmpty then arrange_circle g.nodes 100
  else
    let cluster_radius : ℝ := 100
    let outer_radius : ℝ := cluster_radius * 2 + options.circle_spacing
    let angle_step : ℝ := 2 * Real.pi / (options.clusters.length : ℝ)
    let ns1 := options.clusters.enum.foldl
      (fun acc (cl : Nat × List String) =>
        if cl.2.isEmpty then acc
        else
          let angle := angle_step * (cl.1 : ℝ)
          let cx := outer_radius * Real.cos angle
          let cy := outer_radius * Real.sin angle
          let inner_step : ℝ := 2 * Real.pi / (cl.2.length : ℝ)
          cl.2.enum.foldl
            (fun acc' (p : Nat × String) =>
              let ia := inner_step * (p.1 : ℝ)
              setNodePosition acc' p.2
                (cx + cluster_radius * Real.cos ia, cy + cluster_radius * Real.sin ia))
            acc)
      g.nodes
    let unclustered := g.nodeIds.filter
      (fun id => !(options.clusters.any (fun c => c.contains id)))
    if unclustered.isEmpty then ns1
    else
      let ustep : ℝ := 2 * Real.pi / (unclustered.length : ℝ)
      unclustered.enum.foldl
        (fun acc (p : Nat × String) =>
          let angle := ustep * (p.1 : ℝ)
          setNodePosition acc p.2
            ((outer_radius + cluster_radius) * Real.cos angle,
             (outer_radius + cluster_radius) * Real.sin angle))
        ns1

/-- `CiseLayoutEngine::optimize_ordering`: re-place all nodes on a circle of
radius 100 in order of ascending degree (stable). -/
noncomputable def optimize_ordering (g : Graph) : List Node :=
  let node_degrees : List (String × Nat) :=
    g.nodeIds.map (fun id => (id, nodeDegree g id))
  let sorted := stableSortByKey Prod.snd node_degrees
  if sorted.length = 0 then g.nodes
  else
    let angle_step : ℝ := 2 * Real.pi / (sorted.length : ℝ)
    let radius : ℝ := 100
    sorted.enum.foldl
      (fun acc (p : Nat × (String × Nat)) =>
        let angle := angle_step * (p.1 : ℝ)
        setNodePosition acc p.2.1
          (radius * Real.cos angle, radius * Real.sin angle))
      g.nodes

/-- `CiseLayoutEngine::apply_layout`: arrange clusters, then re-order by
degree.  Always `Ok`. -/
noncomputable def apply_layout (options : CiseLayoutOptions) (g : Graph) :
    Except String Unit × Graph :=
  let g1 := { g with nodes := arrange_clusters options g }
  (.ok (), { g1 with nodes := optimize_ordering g1 })

end Cise

/-! ## Dispatcher (`src/shared/src/layout/mod.rs`) -/

/-- `apply_layout(graph, layout)` from `src/shared/src/layout/mod.rs`: match
on the options tag and delegate.  The shared crate's `algorithms/mod.rs`
declares `pub mod klay;`; the klay module source is the `klay.rs` of the root
crate (`src/src/layout/algorithms/klay.rs`), which declares the identical
public `apply_layout`. -/
noncomputable def apply_layout (alg : LayoutAlgorithm) (g : Graph)
    (r : Nat → ℝ) (k : Nat) : Except String Unit × Graph × Nat :=
  match alg with
  | .fcose o => Fcose.apply_layout o g r k
  | .coseBilkent o => CoseBilkent.apply_layout o g r k
  | .cise o =>
      let res := Cise.apply_layout o g
      (res.1, res.2, k)
  | .concentric o =>
      let res := Concentric.apply_layout o g
      (res.1, res.2, k)
  | .klayLayered o =>
      let res := Klay.apply_layout o g
      (res.1, res.2, k)
  | .dagre o =>
      let res := Dagre.apply_layout o g
      (res.1, res.2, k)

/-! ## Lemmas about the crossing-minimisation loop -/

theorem mcLoop_no_improve (cnt : List String → Nat) (l : List String) :
    (Layered.mcSweep cnt (Layered.mcLoop cnt l)).2 = false := by
  induction l using Layered.mcLoop.induct cnt with
  | case1 l s h ih =>
      rw [Layered.mcLoop, dif_pos h]
      exact ih
  | case2 l s h =>
      rw [Layered.mcLoop, dif_neg h]
      have heq : (Layered.mcSweep cnt l).1 = l :=
        Layered.mcSweep_eq_of_flag_false cnt l (by simpa using h)
      rw [heq]
      simpa using h

theorem mcLoop_idem (cnt : List String → Nat) (l : List String) :
    Layered.mcLoop cnt (Layered.mcLoop cnt l) = Layered.mcLoop cnt l := by
  conv_lhs => rw [Layered.mcLoop]
  have h := mcLoop_no_improve cnt l
  simp only [h, dite_false]
  exact Layered.mcSweep_eq_of_flag_false cnt _ h

theorem mc_cons_cons (g : Graph) (u l : List String)
    (rest : List (List String)) :
    Layered.minimize_crossings g (u :: l :: rest) =
      u :: Layered.minimize_crossings g
        (Layered.mcLoop (Layered.count_crossings g u) l :: rest) := by
  rw [Layered.minimize_crossings]

theorem mc_short (g : Graph) (ls : List (List String))
    (h : ls.length ≤ 1) : Layered.minimize_crossings g ls = ls := by
  match ls with
  | [] =>
      rw [Layered.minimize_crossings]
      intro u l rest hc
      simp at hc
  | [l] =>
      rw [Layered.minimize_crossings]
      intro u l1 rest hc
      simp at hc
  | u :: l :: rest => simp at h

theorem mc_idem_aux (g : Graph) :
    ∀ (n : Nat) (ls : List (List String)), ls.length ≤ n →
      Layered.minimize_crossings g (Layered.minimize_crossings g ls) =
        Layered.minimize_crossings g ls := by
  intro n
  induction n with
  | zero =>
      intro ls h
      have : ls = [] := List.length_eq_zero.mp (Nat.le_zero.mp h)
      subst this
      rw [mc_short g [] (by simp), mc_short g [] (by simp)]
  | succ n ih =>
      intro ls h
      match ls with
      | [] => rw [mc_short g [] (by simp), mc_short g [] (by simp)]
      | [l] => rw [mc_short g [l] (by simp), mc_short g [l] (by simp)]
      | u :: l :: rest =>
          rw [mc_cons_cons]
          cases rest with
          | nil =>
              rw [mc_short g [Layered.mcLoop (Layered.count_crossings g u) l]
                (by simp)]
              rw [mc_cons_cons,
                mc_short g [Layered.mcLoop (Layered.count_crossings g u)
                  (Layered.mcLoop (Layered.count_crossings g u) l)] (by simp),
                mcLoop_idem]
          | cons l2 rest2 =>
              have hM := mc_cons_cons g
                (Layered.mcLoop (Layered.count_crossings g u) l) l2 rest2
              rw [hM, mc_cons_cons, mcLoop_idem]
              have hIH := ih
                (Layered.mcLoop (Layered.count_crossings g u) l :: l2 :: rest2)
                (by simp at h ⊢; omega)
              rw [hM] at hIH
              rw [hIH]

/-! ## Vocabulary for the claims -/

/-- A node id with no incoming edge (the root criterion of both rankers). -/
def isRoot (g : Graph) (v : String) : Bool :=
  !(g.edges.any (fun e => e.target == v))

/-- The predecessors of `v`: sources of the edges targeting `v`, in edge
enumeration order. -/
def predSources (g : Graph) (v : String) : List String :=
  (g.edges.filter (fun e => e.target == v)).map Edge.source

/-- Acyclicity, by the standard characterisation for finite graphs: a rank
function under which every edge strictly increases.  (A self-loop or a
directed cycle admits no such function.) -/
def Acyclic (g : Graph) : Prop :=
  ∃ f : String → Nat, ∀ e ∈ g.edges, f e.source < f e.target

/-- Every edge endpoint names an existing node (the graph invariant of the
data model). -/
def WellFormedEdges (g : Graph) : Prop :=
  ∀ e ∈ g.edges, e.source ∈ g.nodeIds ∧ e.target ∈ g.nodeIds

/-- The layer index the claim expects for a non-root: one more than the
maximum layer index among its predecessors (`foldr max 0` over the indices of
the predecessors that occur in the layering). -/
def maxPredLayerIdx (layers : List (List String)) (g : Graph) (v : String) :
    Nat :=
  ((predSources g v).filterMap (Layered.layerIdxOf layers)).foldr max 0

/-- The ranking property claimed for the longest-path rankers: roots at layer
0, every other node one more than the **maximum** layer index of its
predecessors. -/
def maxPredProp (layers : List (List String)) (g : Graph) : Prop :=
  ∀ v ∈ g.nodeIds,
    (isRoot g v = true → Layered.layerIdxOf layers v = some 0) ∧
    (isRoot g v = false →
      Layered.layerIdxOf layers v = some (1 + maxPredLayerIdx layers g v))

/-- The ranking property the code actually has: roots at layer 0, every other
node one more than the **minimum** layer index of its predecessors (the
breadth-first frontier). -/
def minPredProp (layers : List (List String)) (g : Graph) : Prop :=
  ∀ v ∈ g.nodeIds,
    (isRoot g v = true → Layered.layerIdxOf layers v = some 0) ∧
    (isRoot g v = false → ∃ k,
      Layered.layerIdxOf layers v = some (k + 1) ∧
      (∃ p ∈ predSources g v, Layered.layerIdxOf layers p = some k) ∧
      (∀ p ∈ predSources g v, ∀ j,
        Layered.layerIdxOf layers p = some j → k ≤ j))

/-- Modelled from the spec: the iteration counts §4.2 assigns to the fCoSE
`quality` values (`{"draft","default","proof"}` map to `{30, 50, 100}`).
Stated for comparison with `Fcose.max_iterations`. -/
def specQualityIterations (q : String) : Nat :=
  if q = "draft" then 30 else if q = "proof" then 100 else 50

/-- The graph with all self-loop edges removed (for the self-loop claims). -/
def removeSelfLoops (g : Graph) : Graph :=
  { g with edges := g.edges.filter (fun e => !(e.source == e.target)) }

/-- Squared Euclidean distance between two points. -/
def dist2 (p q : ℝ × ℝ) : ℝ :=
  (p.1 - q.1) * (p.1 - q.1) + (p.2 - q.2) * (p.2 - q.2)

/-- Euclidean norm of a 2D vector. -/
noncomputable def vecNorm (v : ℝ × ℝ) : ℝ :=
  Real.sqrt (v.1 * v.1 + v.2 * v.2)

/-- A node with no position and no metadata. -/
def mkNode (id : String) : Node :=
  { id := id, position := none, metadata := [] }

/-- An edge with no metadata. -/
def mkEdge (id source target : String) : Edge :=
  { id := id, source := source, target := target, metadata := [] }

/-- The star of §8: central node `c` with one edge to each of `n0`–`n4`. -/
def starGraph : Graph :=
  { nodes := [mkNode "c", mkNode "n0", mkNode "n1", mkNode "n2", mkNode "n3",
      mkNode "n4"],
    edges := [mkEdge "e0" "c" "n0", mkEdge "e1" "c" "n1", mkEdge "e2" "c" "n2",
      mkEdge "e3" "c" "n3", mkEdge "e4" "c" "n4"] }

/-- The acyclic diamond `A→B`, `B→C`, `A→C`: node `C` has predecessors in two
different layers. -/
def diamondGraph : Graph :=
  { nodes := [mkNode "A", mkNode "B", mkNode "C"],
    edges := [mkEdge "e1" "A" "B", mkEdge "e2" "B" "C", mkEdge "e3" "A" "C"] }

/-- Two nodes, one self-loop on `A` and no other edge. -/
def loopPairGraph : Graph :=
  { nodes := [mkNode "A", mkNode "B"], edges := [mkEdge "e1" "A" "A"] }

/-- A single node without a position. -/
def singleNodeGraph : Graph :=
  { nodes := [mkNode "A"], edges := [] }

/-- A single node that already has a position. -/
def positionedNodeGraph : Graph :=
  { nodes := [{ id := "A", position := some ((3 : ℝ), (4 : ℝ)), metadata := [] }],
    edges := [] }

/-- The constant-zero ambient random stream. -/
def rngZero : Nat → ℝ := fun _ => 0

/-- The constant-one-half ambient random stream. -/
noncomputable def rngHalf : Nat → ℝ := fun _ => 1 / 2

/-! ## C6 — unknown `concentric_by` value -/

/-- C6: for every graph and options whose `concentric_by` is neither
`"degree"` nor `"id"`, the concentric engine's `apply_layout` returns
`Err("Unsupported concentric_by value: X")` with the offending value
interpolated, and the graph comes back unchanged (the error is raised before
any position is written). -/
theorem concentric_unknown_mode_error (g : Graph)
    (options : ConcentricLayoutOptions)
    (h1 : options.concentric_by ≠ "degree") (h2 : options.concentric_by ≠ "id") :
    Concentric.apply_layout options g =
      (.error ("Unsupported concentric_by value: " ++ options.concentric_by), g) := by
  have hlv : Concentric.assign_levels options g =
      .error ("Unsupported concentric_by value: " ++ options.concentric_by) := by
    unfold Concentric.assign_levels
    split
    next heq => exact absurd heq h1
    next heq => exact absurd heq h2
    next => rfl
  unfold Concentric.apply_layout
  rw [hlv]

/-- Witness for C6 at `concentric_by = "random"` on the star graph. -/
theorem concentric_unknown_mode_error_witness :
    Concentric.apply_layout
        { ConcentricLayoutOptions.default with concentric_by := "random" }
        starGraph =
      (.error "Unsupported concentric_by value: random", starGraph) :=
  concentric_unknown_mode_error starGraph _ (by decide) (by decide)

/-! ## C10 — Dagre unknown ranker fallback, no error path -/

/-- C10: an unknown Dagre ranker string falls back silently to longest-path
ranking, and Dagre's `apply_layout` returns `Ok` for every graph and
options. -/
theorem dagre_ranker_fallback_no_error :
    (∀ (options : DagreLayoutOptions) (g : Graph),
      options.ranker ≠ "network-simplex" → options.ranker ≠ "tight-tree" →
      options.ranker ≠ "longest-path" →
      Dagre.assign_layers options g = Dagre.longest_path_ranking g) ∧
    (∀ (options : DagreLayoutOptions) (g : Graph),
      (Dagre.apply_layout options g).1 = .ok ()) := by
  constructor
  · intro o g h1 h2 h3
    unfold Dagre.assign_layers
    rw [if_neg h1, if_neg h2, if_neg h3]
  · intro o g
    rfl

/-- Witness for C10: ranker `"random"` on the diamond graph falls back to
longest-path, and `apply_layout` with default options returns `Ok`. -/
theorem dagre_ranker_fallback_no_error_witness :
    Dagre.assign_layers { DagreLayoutOptions.default with ranker := "random" }
        diamondGraph = Dagre.longest_path_ranking diamondGraph ∧
    (Dagre.apply_layout DagreLayoutOptions.default diamondGraph).1 = .ok () :=
  ⟨dagre_ranker_fallback_no_error.1 _ diamondGraph (by decide) (by decide)
      (by decide),
    dagre_ranker_fallback_no_error.2 DagreLayoutOptions.default diamondGraph⟩

/-! ## C5 — concentric star scenario (code contradicts its own test) -/

/-- C5: on the star graph with `concentric_by = "degree"`, `assign_levels`
sorts by **ascending** degree, so the five degree-1 leaves form level 0 (the
innermost ring, radius `level_width`) and the hub `c` forms level 1 (radius
`2·level_width`).  The repo's own test `test_level_assignment` asserts
`levels[0] == ["center"]` for this shape of graph — the code fails its own
test, and the claim (hub innermost) matches the test, not the code. -/
theorem concentric_star_assign_levels :
    Concentric.assign_levels
        { ConcentricLayoutOptions.default with concentric_by := "degree" }
        starGraph =
      .ok [["n0", "n1", "n2", "n3", "n4"], ["c"]] := rfl

/-! ## C7 — self-loops in forces and in ranking -/

theorem foldl_filter_of_id {α β : Type _} (step : β → α → β) (p : α → Bool)
    (hstep : ∀ acc x, p x = false → step acc x = acc) :
    ∀ (l : List α) (init : β), (l.filter p).foldl step init = l.foldl step init := by
  intro l
  induction l with
  | nil => intro init; rfl
  | cons x xs ih =>
      intro init
      by_cases hp : p x = true
      · simp only [List.filter_cons, hp, if_pos, List.foldl_cons]
        exact ih _
      · have hp' : p x = false := by simpa using hp
        simp only [List.filter_cons, hp', Bool.false_eq_true, if_neg,
          List.foldl_cons, hstep init x hp']
        exact ih _

/-- C7 counterexample: a self-loop counts as an incoming edge in root
detection, so removing it changes which nodes are roots and changes the
layering.  On two nodes `A`, `B` with the single self-loop `A→A`, the code
takes `B` alone as root and ranks `[[B],[A]]`; with the self-loop removed,
both nodes are roots and the ranking is `[[A,B]]`. -/
theorem selfloop_changes_ranking_cex :
    Layered.rootsBase loopPairGraph = ["B"] ∧
    Layered.rootsBase (removeSelfLoops loopPairGraph) = ["A", "B"] ∧
    Dagre.longest_path_ranking loopPairGraph = [["B"], ["A"]] ∧
    Dagre.longest_path_ranking (removeSelfLoops loopPairGraph) = [["A", "B"]] ∧
    Dagre.longest_path_ranking loopPairGraph ≠
      Dagre.longest_path_ranking (removeSelfLoops loopPairGraph) := by
  refine ⟨rfl, rfl, ?_, ?_, ?_⟩
  · simp [Dagre.longest_path_ranking, Layered.bfsAux, Layered.expandLayer,
      Layered.expandNode, Layered.rootsBase, Layered.withFallbackRoot,
      loopPairGraph, mkNode, mkEdge, Graph.nodeIds]
  · simp [Dagre.longest_path_ranking, Layered.bfsAux, Layered.expandLayer,
      Layered.expandNode, Layered.rootsBase, Layered.withFallbackRoot,
      loopPairGraph, removeSelfLoops, mkNode, mkEdge, Graph.nodeIds]
  · simp [Dagre.longest_path_ranking, Layered.bfsAux, Layered.expandLayer,
      Layered.expandNode, Layered.rootsBase, Layered.withFallbackRoot,
      loopPairGraph, removeSelfLoops, mkNode, mkEdge, Graph.nodeIds]

/-- C7 amended: self-loops contribute nothing to the force calculations —
removing them changes neither `calculate_repulsion` (which reads no edges)
nor `calculate_attraction` (a self-loop's endpoints coincide, so the edge is
dropped by the `distance < 0.1` guard).  Root detection, however, does count
self-loops (see the counterexample), so the rank part of the original claim
is dropped. -/
theorem selfloop_forces_invariant (c k : ℝ) (g : Graph) :
    ForceCore.calculate_repulsion c (removeSelfLoops g).nodes =
      ForceCore.calculate_repulsion c g.nodes ∧
    ForceCore.calculate_attraction k (removeSelfLoops g).nodes
        (removeSelfLoops g).edges =
      ForceCore.calculate_attraction k g.nodes g.edges := by
  constructor
  · rfl
  · show ForceCore.calculate_attraction k g.nodes
        (g.edges.filter (fun e => !(e.source == e.target))) =
      ForceCore.calculate_attraction k g.nodes g.edges
    unfold ForceCore.calculate_attraction
    apply foldl_filter_of_id
    intro forces e he
    have hst : e.source = e.target := by simpa using he
    rw [hst]
    cases hidx : ForceCore.idIndexOf g.nodes e.target with
    | none => rfl
    | some i =>
        simp only [hidx]
        have hz : ((ForceCore.posAt g.nodes i).1 - (ForceCore.posAt g.nodes i).1) = 0 := by
          ring
        have hz2 : ((ForceCore.posAt g.nodes i).2 - (ForceCore.posAt g.nodes i).2) = 0 := by
          ring
        rw [hz, hz2]
        norm_num

/-! ## Frame relations (for C2) -/

/-- Node frame: same id and same metadata (position is free to change). -/
def NodeFrame (n n' : Node) : Prop := n'.id = n.id ∧ n'.metadata = n.metadata

/-- Nodes frame: the node lists correspond pointwise, each node keeping its id
and metadata. -/
def nodesFrame (a b : List Node) : Prop := List.Forall₂ NodeFrame a b

/-- Edge frame: same id and metadata; the endpoints are either kept or
swapped. -/
def EdgeFrame (e e' : Edge) : Prop :=
  e'.id = e.id ∧ e'.metadata = e.metadata ∧
    ((e'.source = e.source ∧ e'.target = e.target) ∨
     (e'.source = e.target ∧ e'.target = e.source))

/-- Edges frame: pointwise `EdgeFrame`. -/
def edgesFrame (a b : List Edge) : Prop := List.Forall₂ EdgeFrame a b

/-- The engines that may swap the endpoints of backward edges: KLay always,
Dagre exactly when `acyclic` is set. -/
def mayReverseEdges : LayoutAlgorithm → Prop
  | .klayLayered _ => True
  | .dagre o => o.acyclic = true
  | _ => False

theorem nodesFrame_refl : ∀ a : List Node, nodesFrame a a := by
  intro a
  induction a with
  | nil => exact List.Forall₂.nil
  | cons x xs ih => exact List.Forall₂.cons ⟨rfl, rfl⟩ ih

theorem nodesFrame_trans : ∀ {a b c : List Node},
    nodesFrame a b → nodesFrame b c → nodesFrame a c := by
  intro a b c hab hbc
  induction hab generalizing c with
  | nil => cases hbc; exact List.Forall₂.nil
  | cons hxy hab ih =>
      cases hbc with
      | cons hyz hbc =>
          exact List.Forall₂.cons
            ⟨hyz.1.trans hxy.1, hyz.2.trans hxy.2⟩ (ih hbc)

theorem edgesFrame_refl : ∀ a : List Edge, edgesFrame a a := by
  intro a
  induction a with
  | nil => exact List.Forall₂.nil
  | cons x xs ih => exact List.Forall₂.cons ⟨rfl, rfl, Or.inl ⟨rfl, rfl⟩⟩ ih

theorem edgesFrame_of_eq {a b : List Edge} (h : b = a) : edgesFrame a b := by
  induction h
  exact edgesFrame_refl b

theorem nodesFrame_map (f : Node → Node)
    (hf : ∀ n, (f n).id = n.id ∧ (f n).metadata = n.metadata) :
    ∀ a : List Node, nodesFrame a (a.map f) := by
  intro a
  induction a with
  | nil => exact List.Forall₂.nil
  | cons x xs ih => exact List.Forall₂.cons ⟨(hf x).1, (hf x).2⟩ ih

theorem nodesFrame_setNodePosition (a b : List Node) (id : String) (p : ℝ × ℝ)
    (h : nodesFrame a b) : nodesFrame a (setNodePosition b id p) :=
  nodesFrame_trans h (nodesFrame_map _ (fun n => by
    split <;> exact ⟨rfl, rfl⟩) b)

theorem nodesFrame_modify (f : Node → Node)
    (hf : ∀ n, (f n).id = n.id ∧ (f n).metadata = n.metadata) :
    ∀ (b : List Node) (i : Nat) (a : List Node),
      nodesFrame a b → nodesFrame a (List.modify f i b) := by
  intro b
  induction b with
  | nil =>
      intro i a h
      cases h
      have hm : List.modify f i ([] : List Node) = [] := by simp
      rw [hm]
      exact List.Forall₂.nil
  | cons x xs ih =>
      intro i a h
      cases h with
      | cons hxy hab =>
          match i with
          | 0 =>
              exact List.Forall₂.cons
                ⟨(hf x).1.trans hxy.1, (hf x).2.trans hxy.2⟩ hab
          | Nat.succ n =>
              exact List.Forall₂.cons hxy (ih n _ hab)

theorem nodesFrame_foldl {α : Type _} (step : List Node → α → List Node)
    (hstep : ∀ acc x, nodesFrame acc (step acc x)) :
    ∀ (l : List α) (init a : List Node),
      nodesFrame a init → nodesFrame a (l.foldl step init) := by
  intro l
  induction l with
  | nil => intro init a h; exact h
  | cons x xs ih =>
      intro init a h
      exact ih _ a (nodesFrame_trans h (hstep init x))

/-- Fold lemma for stateful folds whose node component only moves by
frame-preserving steps. -/
theorem nodesFrame_foldl_proj {α β : Type _} (π : β → List Node)
    (step : β → α → β) (hstep : ∀ st x, nodesFrame (π st) (π (step st x))) :
    ∀ (l : List α) (st : β) (a : List Node),
      nodesFrame a (π st) → nodesFrame a (π (l.foldl step st)) := by
  intro l
  induction l with
  | nil => intro st a h; exact h
  | cons x xs ih =>
      intro st a h
      exact ih _ a (nodesFrame_trans h (hstep st x))

/-! ## C2 — apply_layout frame property -/

theorem nodesFrame_ids {a b : List Node} (h : nodesFrame a b) :
    b.map Node.id = a.map Node.id := by
  induction h with
  | nil => rfl
  | cons hxy _ ih => simp [hxy.1, ih]

theorem edgesFrame_ids {a b : List Edge} (h : edgesFrame a b) :
    b.map Edge.id = a.map Edge.id := by
  induction h with
  | nil => rfl
  | cons hxy _ ih => simp [hxy.1, ih]

theorem edgesFrame_map (f : Edge → Edge) (hf : ∀ e, EdgeFrame e (f e)) :
    ∀ a : List Edge, edgesFrame a (a.map f) := by
  intro a
  induction a with
  | nil => exact List.Forall₂.nil
  | cons x xs ih => exact List.Forall₂.cons (hf x) ih

theorem nodesFrame_setNP (acc : List Node) (id : String) (p : ℝ × ℝ) :
    nodesFrame acc (setNodePosition acc id p) :=
  nodesFrame_setNodePosition acc acc id p (nodesFrame_refl acc)

theorem nodesFrame_enumFrom_map (f : Nat × Node → Node)
    (hf : ∀ p, (f p).id = p.2.id ∧ (f p).metadata = p.2.metadata) :
    ∀ (ns : List Node) (i0 : Nat),
      nodesFrame ns ((List.enumFrom i0 ns).map f) := by
  intro ns
  induction ns with
  | nil => intro i0; exact List.Forall₂.nil
  | cons x xs ih =>
      intro i0
      exact List.Forall₂.cons ⟨(hf (i0, x)).1, (hf (i0, x)).2⟩ (ih (i0 + 1))

theorem position_nodes_frame (o : ConcentricLayoutOptions) (g : Graph)
    (levels : List (List String)) :
    nodesFrame g.nodes (Concentric.position_nodes o g levels).nodes := by
  apply nodesFrame_foldl
  · intro acc lvl
    apply nodesFrame_foldl
    · intro acc' e
      exact nodesFrame_setNP acc' e.2 _
    · exact nodesFrame_refl acc
  · exact nodesFrame_refl _

theorem concentric_apply_frame (o : ConcentricLayoutOptions) (g : Graph) :
    nodesFrame g.nodes (Concentric.apply_layout o g).2.nodes ∧
    (Concentric.apply_layout o g).2.edges = g.edges := by
  unfold Concentric.apply_layout
  cases h : Concentric.assign_levels o g with
  | error e => exact ⟨nodesFrame_refl _, rfl⟩
  | ok levels => exact ⟨position_nodes_frame o g levels, rfl⟩

theorem arrange_circle_frame (ns : List Node) (radius : ℝ) :
    nodesFrame ns (Cise.arrange_circle ns radius) := by
  unfold Cise.arrange_circle
  split
  · exact nodesFrame_refl _
  · apply nodesFrame_enumFrom_map
    intro p
    exact ⟨rfl, rfl⟩

theorem arrange_clusters_frame (o : CiseLayoutOptions) (g : Graph) :
    nodesFrame g.nodes (Cise.arrange_clusters o g) := by
  unfold Cise.arrange_clusters
  split
  · exact arrange_circle_frame g.nodes 100
  · dsimp only
    split
    · apply nodesFrame_foldl
      · intro acc cl
        dsimp only
        split
        · exact nodesFrame_refl acc
        · apply nodesFrame_foldl
          · intro acc' p
            exact nodesFrame_setNP acc' p.2 _
          · exact nodesFrame_refl acc
      · exact nodesFrame_refl _
    · apply nodesFrame_foldl
      · intro acc p
        exact nodesFrame_setNP acc p.2 _
      · apply nodesFrame_foldl
        · intro acc cl
          dsimp only
          split
          · exact nodesFrame_refl acc
          · apply nodesFrame_foldl
            · intro acc' p
              exact nodesFrame_setNP acc' p.2 _
            · exact nodesFrame_refl acc
        · exact nodesFrame_refl _

theorem optimize_ordering_frame (g : Graph) :
    nodesFrame g.nodes (Cise.optimize_ordering g) := by
  unfold Cise.optimize_ordering
  dsimp only
  split
  · exact nodesFrame_refl _
  · apply nodesFrame_foldl
    · intro acc p
      exact nodesFrame_setNP acc p.2.1 _
    · exact nodesFrame_refl _

theorem cise_apply_frame (o : CiseLayoutOptions) (g : Graph) :
    nodesFrame g.nodes (Cise.apply_layout o g).2.nodes ∧
    (Cise.apply_layout o g).2.edges = g.edges := by
  refine ⟨?_, rfl⟩
  show nodesFrame g.nodes
    (Cise.optimize_ordering { g with nodes := Cise.arrange_clusters o g })
  exact nodesFrame_trans (arrange_clusters_frame o g)
    (optimize_ordering_frame { g with nodes := Cise.arrange_clusters o g })

theorem init_positions_frame (r : Nat → ℝ) :
    ∀ (ns : List Node) (k : Nat),
      nodesFrame ns (ForceCore.init_positions r ns k).1 := by
  intro ns
  induction ns with
  | nil => intro k; exact List.Forall₂.nil
  | cons n ns ih =>
      intro k
      rw [ForceCore.init_positions]
      match hp : n.position with
      | some p => exact List.Forall₂.cons ⟨rfl, rfl⟩ (ih k)
      | none => exact List.Forall₂.cons ⟨rfl, rfl⟩ (ih (k + 2))

theorem apply_forces_frame (ns : List Node) (forces : List (ℝ × ℝ)) :
    nodesFrame ns (ForceCore.apply_forces ns forces) := by
  unfold ForceCore.apply_forces
  apply nodesFrame_enumFrom_map
  intro p
  dsimp only
  match forces[p.1]? with
  | some f => exact ⟨rfl, rfl⟩
  | none => exact ⟨rfl, rfl⟩

theorem iterateForces_frame (c k : ℝ) (edges : List Edge) :
    ∀ (m : Nat) (ns : List Node),
      nodesFrame ns (ForceCore.iterateForces c k edges m ns) := by
  intro m
  induction m with
  | zero => intro ns; exact nodesFrame_refl ns
  | succ m ih =>
      intro ns
      rw [ForceCore.iterateForces]
      exact nodesFrame_trans (apply_forces_frame ns _) (ih _)

theorem overlapStep_frame (minD : ℝ) (r : Nat → ℝ) (i : Nat) (p0 : ℝ × ℝ)
    (st : List Node × Nat × Bool) (j : Nat) :
    nodesFrame st.1 (ForceCore.overlapStep minD r i p0 st j).1 := by
  unfold ForceCore.overlapStep
  dsimp only
  split
  · apply nodesFrame_modify
    · intro n
      exact ⟨rfl, rfl⟩
    · apply nodesFrame_modify
      · intro n
        exact ⟨rfl, rfl⟩
      · exact nodesFrame_refl _
  · exact nodesFrame_refl _

theorem overlapPass_frame (minD : ℝ) (r : Nat → ℝ) (n : Nat)
    (st : List Node × Nat) :
    nodesFrame st.1 (ForceCore.overlapPass minD r n st).1 := by
  unfold ForceCore.overlapPass
  apply nodesFrame_foldl_proj (fun s : List Node × Nat × Bool => s.1)
  · intro acc i
    dsimp only
    apply nodesFrame_foldl_proj (fun s : List Node × Nat × Bool => s.1)
    · intro acc' j
      exact overlapStep_frame minD r i _ acc' j
    · exact nodesFrame_refl _
  · exact nodesFrame_refl _

theorem overlapLoop_frame (minD : ℝ) (r : Nat → ℝ) (n : Nat) :
    ∀ (fuel : Nat) (st : List Node × Nat),
      nodesFrame st.1 (ForceCore.overlapLoop minD r n fuel st).1 := by
  intro fuel
  induction fuel with
  | zero => intro st; exact nodesFrame_refl _
  | succ fuel ih =>
      intro st
      rw [ForceCore.overlapLoop]
      split
      · exact nodesFrame_trans (overlapPass_frame minD r n st)
          (ih ((ForceCore.overlapPass minD r n st).1,
            (ForceCore.overlapPass minD r n st).2.1))
      · exact overlapPass_frame minD r n st

theorem remove_overlaps_frame (ov : ℝ) (r : Nat → ℝ) (ns : List Node) (k : Nat) :
    nodesFrame ns (ForceCore.remove_overlaps ov r ns k).1 :=
  overlapLoop_frame _ r ns.length 50 (ns, k)

theorem fcose_apply_frame (o : FcoseLayoutOptions) (g : Graph) (r : Nat → ℝ)
    (k : Nat) :
    nodesFrame g.nodes (Fcose.apply_layout o g r k).2.1.nodes ∧
    (Fcose.apply_layout o g r k).2.1.edges = g.edges := by
  have hres : (Fcose.apply_layout o g r k).2.1 = { g with nodes :=
      (ForceCore.remove_overlaps o.node_overlap r
        (ForceCore.iterateForces o.node_repulsion o.ideal_edge_length g.edges
          (Fcose.max_iterations o) (ForceCore.init_positions r g.nodes k).1)
        (ForceCore.init_positions r g.nodes k).2).1 } := rfl
  rw [hres]
  constructor
  case right => dsimp only
  dsimp only
  exact nodesFrame_trans (init_positions_frame r g.nodes k)
    (nodesFrame_trans
      (iterateForces_frame o.node_repulsion o.ideal_edge_length g.edges
        (Fcose.max_iterations o) (ForceCore.init_positions r g.nodes k).1)
      (remove_overlaps_frame o.node_overlap r
        (ForceCore.iterateForces o.node_repulsion o.ideal_edge_length g.edges
          (Fcose.max_iterations o) (ForceCore.init_positions r g.nodes k).1)
        (ForceCore.init_positions r g.nodes k).2))

theorem coseBilkent_apply_frame (o : CoseBilkentLayoutOptions) (g : Graph)
    (r : Nat → ℝ) (k : Nat) :
    nodesFrame g.nodes (CoseBilkent.apply_layout o g r k).2.1.nodes ∧
    (CoseBilkent.apply_layout o g r k).2.1.edges = g.edges := by
  have hres : (CoseBilkent.apply_layout o g r k).2.1 = { g with nodes :=
      (ForceCore.iterateForces o.node_repulsion o.ideal_edge_length g.edges
        (CoseBilkent.max_iterations o)
        (ForceCore.init_positions r g.nodes k).1) } := rfl
  rw [hres]
  constructor
  case right => dsimp only
  dsimp only
  exact nodesFrame_trans (init_positions_frame r g.nodes k)
    (iterateForces_frame o.node_repulsion o.ideal_edge_length g.edges
      (CoseBilkent.max_iterations o) (ForceCore.init_positions r g.nodes k).1)

theorem break_cycles_frame (g : Graph) (layers : List (List String)) :
    (Layered.break_cycles g layers).nodes = g.nodes ∧
    edgesFrame g.edges (Layered.break_cycles g layers).edges := by
  refine ⟨rfl, ?_⟩
  apply edgesFrame_map
  intro e
  dsimp only
  split
  · exact ⟨rfl, rfl, Or.inr ⟨rfl, rfl⟩⟩
  · exact ⟨rfl, rfl, Or.inl ⟨rfl, rfl⟩⟩

theorem dagre_assign_coordinates_frame (o : DagreLayoutOptions) (g : Graph)
    (layers : List (List String)) :
    nodesFrame g.nodes (Dagre.assign_coordinates o g layers).nodes ∧
    (Dagre.assign_coordinates o g layers).edges = g.edges := by
  refine ⟨?_, rfl⟩
  apply nodesFrame_foldl
  · intro acc li
    apply nodesFrame_foldl
    · intro acc' ni
      exact nodesFrame_setNP acc' ni.2 _
    · exact nodesFrame_refl acc
  · exact nodesFrame_refl _

theorem klay_assign_coordinates_frame (o : KlayLayeredLayoutOptions) (g : Graph)
    (layers : List (List String)) :
    nodesFrame g.nodes (Klay.assign_coordinates o g layers).nodes ∧
    (Klay.assign_coordinates o g layers).edges = g.edges := by
  refine ⟨?_, rfl⟩
  apply nodesFrame_foldl
  · intro acc li
    apply nodesFrame_foldl
    · intro acc' ni
      exact nodesFrame_setNP acc' ni.2 _
    · exact nodesFrame_refl acc
  · exact nodesFrame_refl _

theorem dagre_apply_frame (o : DagreLayoutOptions) (g : Graph) :
    nodesFrame g.nodes (Dagre.apply_layout o g).2.nodes ∧
    edgesFrame g.edges (Dagre.apply_layout o g).2.edges ∧
    (o.acyclic = false → (Dagre.apply_layout o g).2.edges = g.edges) := by
  have hres : (Dagre.apply_layout o g).2 =
      Dagre.assign_coordinates o
        (if o.acyclic = true then
          Layered.break_cycles g (Dagre.assign_layers o g) else g)
        (Layered.minimize_crossings
          (if o.acyclic = true then
            Layered.break_cycles g (Dagre.assign_layers o g) else g)
          (Dagre.assign_layers o g)) := rfl
  have hg1n : (if o.acyclic = true then
      Layered.break_cycles g (Dagre.assign_layers o g) else g).nodes =
      g.nodes := by
    split <;> rfl
  refine ⟨?_, ?_, ?_⟩
  · rw [hres]
    have := (dagre_assign_coordinates_frame o
      (if o.acyclic = true then
        Layered.break_cycles g (Dagre.assign_layers o g) else g)
      (Layered.minimize_crossings
        (if o.acyclic = true then
          Layered.break_cycles g (Dagre.assign_layers o g) else g)
        (Dagre.assign_layers o g))).1
    rwa [hg1n] at this
  · rw [hres]
    have hco := (dagre_assign_coordinates_frame o
      (if o.acyclic = true then
        Layered.break_cycles g (Dagre.assign_layers o g) else g)
      (Layered.minimize_crossings
        (if o.acyclic = true then
          Layered.break_cycles g (Dagre.assign_layers o g) else g)
        (Dagre.assign_layers o g))).2
    rw [hco]
    split
    · exact (break_cycles_frame g _).2
    · exact edgesFrame_refl _
  · intro hfalse
    rw [hres]
    have hco := (dagre_assign_coordinates_frame o
      (if o.acyclic = true then
        Layered.break_cycles g (Dagre.assign_layers o g) else g)
      (Layered.minimize_crossings
        (if o.acyclic = true then
          Layered.break_cycles g (Dagre.assign_layers o g) else g)
        (Dagre.assign_layers o g))).2
    rw [hco, if_neg (by rw [hfalse]; exact Bool.false_ne_true)]

theorem klay_apply_frame (o : KlayLayeredLayoutOptions) (g : Graph) :
    nodesFrame g.nodes (Klay.apply_layout o g).2.nodes ∧
    edgesFrame g.edges (Klay.apply_layout o g).2.edges := by
  constructor
  · have hn : (Layered.break_cycles g (Klay.assign_layers g)).nodes =
      g.nodes := rfl
    have := (klay_assign_coordinates_frame o
      (Layered.break_cycles g (Klay.assign_layers g))
      (Layered.minimize_crossings
        (Layered.break_cycles g (Klay.assign_layers g))
        (Klay.assign_layers g))).1
    rwa [hn] at this
  · exact (break_cycles_frame g _).2

/-- C2: for every graph, every algorithm options value and every ambient
random stream, `apply_layout` preserves the node id list, the edge id list,
every node's metadata and every edge's metadata (pointwise frames, hence the
same cardinalities); a node's position is the only node field that changes;
and only the layered engines (KLay always, Dagre when `acyclic`) may swap a
backward edge's source and target — every other engine returns the edge list
unchanged. -/
theorem apply_layout_frame (alg : LayoutAlgorithm) (g : Graph) (r : Nat → ℝ)
    (k : Nat) :
    ((apply_layout alg g r k).2.1.nodes.map Node.id = g.nodes.map Node.id) ∧
    nodesFrame g.nodes (apply_layout alg g r k).2.1.nodes ∧
    ((apply_layout alg g r k).2.1.edges.map Edge.id = g.edges.map Edge.id) ∧
    edgesFrame g.edges (apply_layout alg g r k).2.1.edges ∧
    (¬ mayReverseEdges alg → (apply_layout alg g r k).2.1.edges = g.edges) := by
  have main : nodesFrame g.nodes (apply_layout alg g r k).2.1.nodes ∧
      edgesFrame g.edges (apply_layout alg g r k).2.1.edges ∧
      (¬ mayReverseEdges alg → (apply_layout alg g r k).2.1.edges = g.edges) := by
    cases alg with
    | fcose o =>
        have h := fcose_apply_frame o g r k
        exact ⟨h.1, edgesFrame_of_eq h.2, fun _ => h.2⟩
    | coseBilkent o =>
        have h := coseBilkent_apply_frame o g r k
        exact ⟨h.1, edgesFrame_of_eq h.2, fun _ => h.2⟩
    | cise o =>
        have h := cise_apply_frame o g
        exact ⟨h.1, edgesFrame_of_eq h.2, fun _ => h.2⟩
    | concentric o =>
        have h := concentric_apply_frame o g
        exact ⟨h.1, edgesFrame_of_eq h.2, fun _ => h.2⟩
    | klayLayered o =>
        have h := klay_apply_frame o g
        exact ⟨h.1, h.2, fun hc => absurd trivial hc⟩
    | dagre o =>
        have h := dagre_apply_frame o g
        refine ⟨h.1, h.2.1, fun hc => ?_⟩
        have : o.acyclic = false := by
          cases hval : o.acyclic with
          | true => exact absurd hval hc
          | false => rfl
        exact h.2.2 this
  exact ⟨nodesFrame_ids main.1, main.1, edgesFrame_ids main.2.1, main.2.1,
    main.2.2⟩

/-- Witness for C2 at the concentric engine on the star graph (whose
`mayReverseEdges` hypothesis is discharged): node ids, edges and metadata all
survive. -/
theorem apply_layout_frame_witness :
    nodesFrame starGraph.nodes
      (apply_layout (LayoutAlgorithm.concentric ConcentricLayoutOptions.default)
        starGraph rngZero 0).2.1.nodes ∧
    (apply_layout (LayoutAlgorithm.concentric ConcentricLayoutOptions.default)
        starGraph rngZero 0).2.1.edges = starGraph.edges :=
  ⟨(apply_layout_frame (LayoutAlgorithm.concentric ConcentricLayoutOptions.default)
      starGraph rngZero 0).2.1,
   (apply_layout_frame (LayoutAlgorithm.concentric ConcentricLayoutOptions.default)
      starGraph rngZero 0).2.2.2.2 (fun h => False.elim h)⟩

/-! ## C3 — the random source is ambient, not seeded through options -/

theorem forceIteration_single (c k : ℝ) (id : String) (p : ℝ × ℝ)
    (md : List (String × MetadataValue)) :
    ForceCore.forceIteration c k []
        [{ id := id, position := some p, metadata := md }] =
      [{ id := id, position := some p, metadata := md }] := by
  simp [ForceCore.forceIteration, ForceCore.calculate_repulsion,
    ForceCore.calculate_attraction, ForceCore.apply_forces, ForceCore.posAt,
    ForceCore.posOrZero, List.range_succ]

theorem iterateForces_single (c k : ℝ) (m : Nat) (id : String) (p : ℝ × ℝ)
    (md : List (String × MetadataValue)) :
    ForceCore.iterateForces c k [] m
        [{ id := id, position := some p, metadata := md }] =
      [{ id := id, position := some p, metadata := md }] := by
  induction m with
  | zero => rfl
  | succ m ih =>
      rw [ForceCore.iterateForces, forceIteration_single]
      exact ih

theorem remove_overlaps_single (ov : ℝ) (r : Nat → ℝ) (n : Node) (k : Nat) :
    ForceCore.remove_overlaps ov r [n] k = ([n], k) := by
  have hpass : ForceCore.overlapPass (10 * 2 * (1 - ov / 100)) r 1 ([n], k) =
      ([n], k, false) := rfl
  show ForceCore.overlapLoop (10 * 2 * (1 - ov / 100)) r 1 (49 + 1) ([n], k) =
    ([n], k)
  rw [ForceCore.overlapLoop, hpass]
  rfl

theorem fcose_eval_rngZero :
    (Fcose.apply_layout FcoseLayoutOptions.default singleNodeGraph rngZero
        0).2.1.nodes.map Node.position = [some ((0 : ℝ), (0 : ℝ))] := by
  have h1 : ForceCore.init_positions rngZero singleNodeGraph.nodes 0 =
      ([{ id := "A", position := some ((0 : ℝ), (0 : ℝ)), metadata := [] }], 2) := by
    simp [ForceCore.init_positions, singleNodeGraph, mkNode, rngZero]
  unfold Fcose.apply_layout
  rw [h1]
  simp only [singleNodeGraph, Fcose.max_iterations, iterateForces_single,
    remove_overlaps_single]
  rfl

theorem fcose_eval_rngHalf :
    (Fcose.apply_layout FcoseLayoutOptions.default singleNodeGraph rngHalf
        0).2.1.nodes.map Node.position = [some ((-50 : ℝ), (0 : ℝ))] := by
  have h1 : ForceCore.init_positions rngHalf singleNodeGraph.nodes 0 =
      ([{ id := "A", position := some ((-50 : ℝ), (0 : ℝ)), metadata := [] }], 2) := by
    simp [ForceCore.init_positions, singleNodeGraph, mkNode, rngHalf]
    norm_num
  unfold Fcose.apply_layout
  rw [h1]
  simp only [singleNodeGraph, Fcose.max_iterations, iterateForces_single,
    remove_overlaps_single]
  rfl

/-- C3 counterexample: on the same graph with the same options (which carry no
seed field at all), the fCoSE positions depend on the ambient thread-local
random stream — the constant-0 stream and the constant-½ stream produce
different positions. -/
theorem fcose_ambient_rng_cex :
    (Fcose.apply_layout FcoseLayoutOptions.default singleNodeGraph rngZero
        0).2.1.nodes.map Node.position ≠
      (Fcose.apply_layout FcoseLayoutOptions.default singleNodeGraph rngHalf
        0).2.1.nodes.map Node.position := by
  rw [fcose_eval_rngZero, fcose_eval_rngHalf]
  intro h
  simp only [List.cons.injEq, Option.some.injEq, Prod.mk.injEq] at h
  have : (0 : ℝ) = -50 := h.1.1
  norm_num at this

theorem init_positions_of_allSome (r : Nat → ℝ) :
    ∀ (ns : List Node) (k : Nat), (∀ n ∈ ns, n.position.isSome = true) →
      ForceCore.init_positions r ns k = (ns, k) := by
  intro ns
  induction ns with
  | nil => intro k _; rfl
  | cons n ns ih =>
      intro k h
      have hn : n.position.isSome = true := h n (List.mem_cons_self _ _)
      rw [ForceCore.init_positions]
      match hp : n.position with
      | some p =>
          simp only []
          rw [ih k (fun m hm => h m (List.mem_cons_of_mem _ hm))]
      | none => rw [hp] at hn; cases hn

/-- C3 amended: every random draw comes from the ambient process-global
stream, not from the options (no seed exists in the options); with every node
position already set, CoSE-Bilkent's result is independent of the ambient
stream and cursor, while fCoSE's result genuinely varies with the ambient
stream on identical graph + options. -/
theorem rng_ambient_not_seeded :
    (∀ (options : CoseBilkentLayoutOptions) (g : Graph) (r1 r2 : Nat → ℝ)
      (k1 k2 : Nat), (∀ n ∈ g.nodes, n.position.isSome = true) →
      (CoseBilkent.apply_layout options g r1 k1).2.1 =
        (CoseBilkent.apply_layout options g r2 k2).2.1) ∧
    (∃ (options : FcoseLayoutOptions) (g : Graph) (r1 r2 : Nat → ℝ) (k : Nat),
      (Fcose.apply_layout options g r1 k).2.1 ≠
        (Fcose.apply_layout options g r2 k).2.1) := by
  constructor
  · intro o g r1 r2 k1 k2 h
    unfold CoseBilkent.apply_layout
    rw [init_positions_of_allSome r1 g.nodes k1 h,
      init_positions_of_allSome r2 g.nodes k2 h]
  · refine ⟨FcoseLayoutOptions.default, singleNodeGraph, rngZero, rngHalf, 0, ?_⟩
    intro h
    have h' := congrArg (fun gr : Graph => gr.nodes.map Node.position) h
    simp only at h'
    rw [fcose_eval_rngZero, fcose_eval_rngHalf] at h'
    simp only [List.cons.injEq, Option.some.injEq, Prod.mk.injEq] at h'
    have : (0 : ℝ) = -50 := h'.1.1
    norm_num at this

/-- Witness for C3 amended: a graph whose only node already has a position,
run under two different ambient streams and cursors. -/
theorem rng_ambient_not_seeded_witness :
    (CoseBilkent.apply_layout CoseBilkentLayoutOptions.default
        positionedNodeGraph rngZero 0).2.1 =
      (CoseBilkent.apply_layout CoseBilkentLayoutOptions.default
        positionedNodeGraph rngHalf 5).2.1 :=
  rng_ambient_not_seeded.1 CoseBilkentLayoutOptions.default positionedNodeGraph
    rngZero rngHalf 0 5 (by simp [positionedNodeGraph])

/-! ## C8 — repulsion force law -/

theorem pairRepulsion_eq (c : ℝ) (pa pb : ℝ × ℝ) :
    ForceCore.pairRepulsion c pa pb =
      if dist2 pa pb < 0.1 then (0, 0)
      else (c / dist2 pa pb * (pa.1 - pb.1) / Real.sqrt (dist2 pa pb),
            c / dist2 pa pb * (pa.2 - pb.2) / Real.sqrt (dist2 pa pb)) := rfl

/-- C8: (i) on a two-node graph, `calculate_repulsion` returns exactly the
pair contribution for each node against the other; (ii) whenever `d² ≥ 0.1`
(and the repulsion constant is nonnegative), each contribution is the vector
`c/(d²·√d²) · (pᵢ − pⱼ)` — a nonnegative multiple of the direction away from
the other node — with Euclidean norm `c/d²`; (iii) every ordered pair at
`d² < 0.1` contributes nothing. -/
theorem repulsion_force_law :
    (∀ (c : ℝ) (n1 n2 : Node),
      ForceCore.calculate_repulsion c [n1, n2] =
        [ForceCore.pairRepulsion c (ForceCore.posOrZero n1) (ForceCore.posOrZero n2),
         ForceCore.pairRepulsion c (ForceCore.posOrZero n2) (ForceCore.posOrZero n1)]) ∧
    (∀ (c : ℝ) (pa pb : ℝ × ℝ), 0 ≤ c → 0.1 ≤ dist2 pa pb →
      ForceCore.pairRepulsion c pa pb =
        (c / (dist2 pa pb * Real.sqrt (dist2 pa pb)) * (pa.1 - pb.1),
         c / (dist2 pa pb * Real.sqrt (dist2 pa pb)) * (pa.2 - pb.2)) ∧
      0 ≤ c / (dist2 pa pb * Real.sqrt (dist2 pa pb)) ∧
      vecNorm (ForceCore.pairRepulsion c pa pb) = c / dist2 pa pb) ∧
    (∀ (c : ℝ) (pa pb : ℝ × ℝ), dist2 pa pb < 0.1 →
      ForceCore.pairRepulsion c pa pb = (0, 0)) := by
  refine ⟨?_, ?_, ?_⟩
  · intro c n1 n2
    simp [ForceCore.calculate_repulsion, ForceCore.posAt, List.range_succ]
  · intro c pa pb hC hd
    have hd2pos : (0 : ℝ) < dist2 pa pb := lt_of_lt_of_le (by norm_num) hd
    have hsq : (0 : ℝ) < Real.sqrt (dist2 pa pb) := Real.sqrt_pos.mpr hd2pos
    have hne : ¬ dist2 pa pb < 0.1 := not_lt.mpr hd
    have hval : ForceCore.pairRepulsion c pa pb =
        (c / (dist2 pa pb * Real.sqrt (dist2 pa pb)) * (pa.1 - pb.1),
         c / (dist2 pa pb * Real.sqrt (dist2 pa pb)) * (pa.2 - pb.2)) := by
      rw [pairRepulsion_eq, if_neg hne]
      simp only [Prod.mk.injEq]
      constructor <;> (field_simp; try ring)
    refine ⟨hval, div_nonneg hC (mul_nonneg (le_of_lt hd2pos) (Real.sqrt_nonneg _)), ?_⟩
    rw [hval]
    unfold vecNorm
    have hsum : c / (dist2 pa pb * Real.sqrt (dist2 pa pb)) * (pa.1 - pb.1) *
          (c / (dist2 pa pb * Real.sqrt (dist2 pa pb)) * (pa.1 - pb.1)) +
        c / (dist2 pa pb * Real.sqrt (dist2 pa pb)) * (pa.2 - pb.2) *
          (c / (dist2 pa pb * Real.sqrt (dist2 pa pb)) * (pa.2 - pb.2)) =
        (c / (dist2 pa pb * Real.sqrt (dist2 pa pb)))^2 * dist2 pa pb := by
      unfold dist2
      ring
    rw [hsum, Real.sqrt_mul (sq_nonneg _), Real.sqrt_sq_eq_abs,
      abs_of_nonneg (div_nonneg hC (mul_nonneg (le_of_lt hd2pos) (Real.sqrt_nonneg _)))]
    rw [div_mul_eq_mul_div, mul_comm (dist2 pa pb) (Real.sqrt (dist2 pa pb)),
      ← div_div]
    rw [mul_div_assoc, div_self (ne_of_gt hsq), mul_one]
  · intro c pa pb h
    rw [pairRepulsion_eq, if_pos h]

/-- Witness for C8: nodes at `(0,0)` and `(3,4)` (so `d² = 25`) with the
default repulsion constant 4500, and a coincident pair for the guard. -/
theorem repulsion_force_law_witness :
    ForceCore.calculate_repulsion 4500
        [{ id := "a", position := some ((0 : ℝ), (0 : ℝ)), metadata := [] },
         { id := "b", position := some ((3 : ℝ), (4 : ℝ)), metadata := [] }] =
      [ForceCore.pairRepulsion 4500 ((0 : ℝ), (0 : ℝ)) ((3 : ℝ), (4 : ℝ)),
       ForceCore.pairRepulsion 4500 ((3 : ℝ), (4 : ℝ)) ((0 : ℝ), (0 : ℝ))] ∧
    vecNorm (ForceCore.pairRepulsion 4500 ((0 : ℝ), (0 : ℝ)) ((3 : ℝ), (4 : ℝ))) =
      4500 / dist2 ((0 : ℝ), (0 : ℝ)) ((3 : ℝ), (4 : ℝ)) ∧
    ForceCore.pairRepulsion 4500 ((0 : ℝ), (100 : ℝ)) ((0 : ℝ), (100 : ℝ)) = (0, 0) := by
  refine ⟨?_, ?_, ?_⟩
  · have h := repulsion_force_law.1 4500
      { id := "a", position := some ((0 : ℝ), (0 : ℝ)), metadata := [] }
      { id := "b", position := some ((3 : ℝ), (4 : ℝ)), metadata := [] }
    simpa [ForceCore.posOrZero] using h
  · exact (repulsion_force_law.2.1 4500 ((0 : ℝ), (0 : ℝ)) ((3 : ℝ), (4 : ℝ))
      (by norm_num) (by norm_num [dist2])).2.2
  · exact repulsion_force_law.2.2 4500 ((0 : ℝ), (100 : ℝ)) ((0 : ℝ), (100 : ℝ))
      (by norm_num [dist2])

/-! ## C9 — crossing minimisation is idempotent -/

/-- C9: for every graph and every layering, running `minimize_crossings` (the
routine shared verbatim by `dagre.rs` and `klay.rs`) twice produces the same
within-layer orderings as running it once.  Each stage's `while improved`
loop stops exactly when no adjacent swap strictly reduces the crossing count,
so a second run keeps no swap anywhere. -/
theorem minimize_crossings_idempotent (g : Graph) (layers : List (List String)) :
    Layered.minimize_crossings g (Layered.minimize_crossings g layers) =
      Layered.minimize_crossings g layers :=
  mc_idem_aux g layers.length layers le_rfl

/-! ## C4 — fCoSE quality option and the fCoSE/CoSE-Bilkent difference -/

/-- C4 counterexample: the shared-crate fCoSE `apply_layout` uses the literal
`max_iterations = 50` and never reads `quality`; with `quality = "draft"` the
spec's mapping prescribes 30 iterations, the code runs 50. -/
theorem fcose_quality_ignored_cex :
    Fcose.max_iterations { FcoseLayoutOptions.default with quality := "draft" } = 50 ∧
    specQualityIterations "draft" = 30 ∧
    Fcose.max_iterations { FcoseLayoutOptions.default with quality := "draft" } ≠
      specQualityIterations
        ({ FcoseLayoutOptions.default with quality := "draft" } : FcoseLayoutOptions).quality :=
  ⟨rfl, rfl, by decide⟩

/-- C4 amended: the fCoSE iteration count is the constant 50 whatever the
options (in particular whatever `quality`), and fCoSE is exactly
CoSE-Bilkent (on the translated options) followed by the overlap-removal
post-pass — the two engines differ in nothing else. -/
theorem fcose_fixed_iterations_overlap_only_diff :
    (∀ options : FcoseLayoutOptions, Fcose.max_iterations options = 50) ∧
    (∀ (options : FcoseLayoutOptions) (g : Graph) (r : Nat → ℝ) (k : Nat),
      Fcose.apply_layout options g r k =
        (let cb := CoseBilkent.apply_layout
            { base := options.base, node_repulsion := options.node_repulsion,
              node_overlap := options.node_overlap,
              ideal_edge_length := options.ideal_edge_length } g r k
         let ov := ForceCore.remove_overlaps options.node_overlap r
            cb.2.1.nodes cb.2.2
         (.ok (), { cb.2.1 with nodes := ov.1 }, ov.2))) := by
  refine ⟨fun _ => rfl, fun o g r k => ?_⟩
  simp only [Fcose.apply_layout, CoseBilkent.apply_layout, Fcose.max_iterations,
    CoseBilkent.max_iterations]

/-! ## C1 — what the layered rankers actually compute

The layer loop of `longest_path_ranking` (dagre.rs) and `assign_layers`
(klay.rs) is a breadth-first traversal: a node is placed in the first layer
after any already-expanded predecessor.  The lemmas below establish the
breadth-first invariants of `Layered.bfsAux` and derive `minPredProp` — the
layer index of a non-root is one more than the **minimum** layer index of its
predecessors — for the layering both rankers return on a well-formed acyclic
graph.  The **maximum**-based rule of the claim fails on `diamondGraph`. -/

theorem expandNode_next_mono {u : String} :
    ∀ (es : List Edge) (st : List String × List String) (x : String),
      x ∈ st.2 → x ∈ (Layered.expandNode u es st).2 := by
  intro es
  induction es with
  | nil => intro st x hx; simpa [Layered.expandNode] using hx
  | cons e es ih =>
      intro st x hx
      rw [Layered.expandNode]
      split
      · exact ih _ x (List.mem_append.mpr (Or.inl hx))
      · exact ih _ x hx

theorem expandLayer_next_mono (edges : List Edge) :
    ∀ (us : List String) (st : List String × List String) (x : String),
      x ∈ st.2 → x ∈ (Layered.expandLayer edges us st).2 := by
  intro us
  induction us with
  | nil => intro st x hx; simpa [Layered.expandLayer] using hx
  | cons u us ih =>
      intro st x hx
      rw [Layered.expandLayer]
      exact ih _ x (expandNode_next_mono _ _ x hx)

theorem expandNode_assigned_in_next {u : String} :
    ∀ (es : List Edge) (st : List String × List String) (x : String),
      x ∈ (Layered.expandNode u es st).1 →
      x ∈ st.1 ∨ x ∈ (Layered.expandNode u es st).2 := by
  intro es
  induction es with
  | nil => intro st x hx; left; simpa [Layered.expandNode] using hx
  | cons e es ih =>
      intro st x hx
      rw [Layered.expandNode] at hx ⊢
      by_cases hcond : e.source = u ∧ e.target ∉ st.1
      · rw [if_pos hcond] at hx ⊢
        rcases ih _ x hx with h | h
        · rcases List.mem_cons.mp h with h | h
          · subst h
            exact Or.inr (expandNode_next_mono es _ _
              (List.mem_append.mpr (Or.inr (by simp))))
          · exact Or.inl h
        · exact Or.inr h
      · rw [if_neg hcond] at hx ⊢
        exact ih _ x hx

theorem expandLayer_assigned_in_next (edges : List Edge) :
    ∀ (us : List String) (st : List String × List String) (x : String),
      x ∈ (Layered.expandLayer edges us st).1 →
      x ∈ st.1 ∨ x ∈ (Layered.expandLayer edges us st).2 := by
  intro us
  induction us with
  | nil => intro st x hx; left; simpa [Layered.expandLayer] using hx
  | cons u us ih =>
      intro st x hx
      rw [Layered.expandLayer] at hx ⊢
      rcases ih _ x hx with h | h
      · rcases expandNode_assigned_in_next edges _ x h with h1 | h1
        · exact Or.inl h1
        · exact Or.inr (expandLayer_next_mono edges us _ x h1)
      · exact Or.inr h

theorem expandNode_closure {u : String} :
    ∀ (es : List Edge) (st : List String × List String) (e : Edge),
      e ∈ es → e.source = u → e.target ∈ (Layered.expandNode u es st).1 := by
  intro es
  induction es with
  | nil => intro st e he; cases he
  | cons e0 es ih =>
      intro st e he hs
      rw [Layered.expandNode]
      rcases List.mem_cons.mp he with h | h
      · subst h
        by_cases hcond : e.source = u ∧ e.target ∉ st.1
        · rw [if_pos hcond]
          exact Layered.expandNode_assigned_mono es _ _ (by simp)
        · rw [if_neg hcond]
          have ht : e.target ∈ st.1 := by
            by_contra hc
            exact hcond ⟨hs, hc⟩
          exact Layered.expandNode_assigned_mono es _ _ ht
      · split
        · exact ih _ e h hs
        · exact ih _ e h hs

theorem expandLayer_closure (edges : List Edge) :
    ∀ (us : List String) (st : List String × List String) (e : Edge),
      e ∈ edges → e.source ∈ us →
      e.target ∈ (Layered.expandLayer edges us st).1 := by
  intro us
  induction us with
  | nil => intro st e _ hs; cases hs
  | cons u us ih =>
      intro st e he hs
      rw [Layered.expandLayer]
      rcases List.mem_cons.mp hs with h | h
      · exact Layered.expandLayer_assigned_mono edges us _ _
          (expandNode_closure edges st e he h)
      · exact ih _ e he h

theorem next_sub_assigned (E : List Edge) (assigned current : List String) :
    ∀ x ∈ (Layered.expandLayer E current (assigned, [])).2,
      x ∈ (Layered.expandLayer E current (assigned, [])).1 := by
  intro x hx
  rcases Layered.expandLayer_next_spec E current (assigned, []) x hx with h | h
  · simp at h
  · exact h.1

theorem bfs_assigned_mono (E : List Edge) (assigned current : List String) :
    ∀ x ∈ assigned, x ∈ (Layered.bfsAux E assigned current).2 := by
  induction assigned, current using Layered.bfsAux.induct E with
  | case1 assigned current st h =>
      intro x hx
      rw [Layered.bfsAux, dif_pos h]
      exact Layered.expandLayer_assigned_mono E current _ x hx
  | case2 assigned current st h ih =>
      intro x hx
      rw [Layered.bfsAux, dif_neg h]
      exact ih x (Layered.expandLayer_assigned_mono E current _ x hx)

theorem bfs_final_sub (E : List Edge) (assigned current : List String) :
    ∀ x ∈ (Layered.bfsAux E assigned current).2,
      x ∈ assigned ∨ ∃ l ∈ (Layered.bfsAux E assigned current).1, x ∈ l := by
  induction assigned, current using Layered.bfsAux.induct E with
  | case1 assigned current st h =>
      intro x hx
      rw [Layered.bfsAux, dif_pos h] at hx ⊢
      rcases expandLayer_assigned_in_next E current (assigned, []) x hx with h1 | h1
      · exact Or.inl h1
      · rw [h] at h1
        cases h1
  | case2 assigned current st h ih =>
      intro x hx
      rw [Layered.bfsAux, dif_neg h] at hx ⊢
      rcases ih x hx with h1 | ⟨l, hl, hxl⟩
      · rcases expandLayer_assigned_in_next E current (assigned, []) x h1 with h2 | h2
        · exact Or.inl h2
        · exact Or.inr ⟨_, List.mem_cons_self _ _, h2⟩
      · exact Or.inr ⟨l, List.mem_cons_of_mem _ hl, hxl⟩

theorem bfs_layers_fresh (E : List Edge) (assigned current : List String) :
    ∀ l ∈ (Layered.bfsAux E assigned current).1, ∀ x ∈ l, x ∉ assigned := by
  induction assigned, current using Layered.bfsAux.induct E with
  | case1 assigned current st h =>
      intro l hl
      rw [Layered.bfsAux, dif_pos h] at hl
      cases hl
  | case2 assigned current st h ih =>
      intro l hl x hx
      rw [Layered.bfsAux, dif_neg h] at hl
      rcases List.mem_cons.mp hl with h1 | h1
      · subst h1
        rcases Layered.expandLayer_next_spec E current (assigned, []) x hx with h2 | h2
        · simp at h2
        · exact h2.2.1
      · intro hxa
        exact ih l h1 x hx
          (Layered.expandLayer_assigned_mono E current (assigned, []) x hxa)

theorem bfs_layers_disjoint (E : List Edge) (assigned current : List String) :
    ∀ (i j : Nat) (li lj : List String), j < i →
      (Layered.bfsAux E assigned current).1[i]? = some li →
      (Layered.bfsAux E assigned current).1[j]? = some lj →
      ∀ x ∈ li, x ∉ lj := by
  induction assigned, current using Layered.bfsAux.induct E with
  | case1 assigned current st h =>
      intro i j li lj hji hi hj
      rw [Layered.bfsAux, dif_pos h] at hi
      simp at hi
  | case2 assigned current st h ih =>
      intro i j li lj hji hi hj x hxi
      rw [Layered.bfsAux, dif_neg h] at hi hj
      cases i with
      | zero => cases hji
      | succ i =>
          rw [List.getElem?_cons_succ] at hi
          cases j with
          | zero =>
              rw [List.getElem?_cons_zero] at hj
              cases hj
              intro hxj
              have hsub := next_sub_assigned E assigned current x hxj
              exact bfs_layers_fresh E
                (Layered.expandLayer E current (assigned, [])).1
                (Layered.expandLayer E current (assigned, [])).2
                li (List.getElem?_mem hi) x hxi hsub
          | succ j =>
              rw [List.getElem?_cons_succ] at hj
              exact ih i j li lj (Nat.lt_of_succ_lt_succ hji) hi hj x hxi

theorem bfs_layer_index_unique (E : List Edge) (assigned current : List String)
    (i j : Nat) (li lj : List String)
    (hi : (Layered.bfsAux E assigned current).1[i]? = some li)
    (hj : (Layered.bfsAux E assigned current).1[j]? = some lj)
    (x : String) (hxi : x ∈ li) (hxj : x ∈ lj) : i = j := by
  rcases Nat.lt_trichotomy i j with h | h | h
  · exact absurd hxi (bfs_layers_disjoint E assigned current j i lj li h hj hi x hxj)
  · exact h
  · exact absurd hxj (bfs_layers_disjoint E assigned current i j li lj h hi hj x hxi)

theorem bfs_pred_prev (E : List Edge) (assigned current : List String) :
    ∀ (i : Nat) (ln : List String),
      (Layered.bfsAux E assigned current).1[i]? = some ln →
      ∀ x ∈ ln,
        ∃ lp, (current :: (Layered.bfsAux E assigned current).1)[i]? = some lp ∧
          ∃ e ∈ E, e.target = x ∧ e.source ∈ lp := by
  induction assigned, current using Layered.bfsAux.induct E with
  | case1 assigned current st h =>
      intro i ln hn
      rw [Layered.bfsAux, dif_pos h] at hn
      simp at hn
  | case2 assigned current st h ih =>
      intro i ln hn x hx
      rw [Layered.bfsAux, dif_neg h] at hn ⊢
      cases i with
      | zero =>
          rw [List.getElem?_cons_zero] at hn
          cases hn
          refine ⟨current, List.getElem?_cons_zero, ?_⟩
          rcases Layered.expandLayer_next_spec E current (assigned, []) x hx with h2 | h2
          · simp at h2
          · exact h2.2.2
      | succ i =>
          rw [List.getElem?_cons_succ] at hn
          rcases ih i ln hn x hx with ⟨lp, hlp, hedge⟩
          exact ⟨lp, by rw [List.getElem?_cons_succ]; exact hlp, hedge⟩

theorem bfs_succ_bound (E : List Edge) (assigned current : List String) :
    ∀ (i : Nat) (l : List String) (e : Edge), e ∈ E →
      (current :: (Layered.bfsAux E assigned current).1)[i]? = some l →
      e.source ∈ l →
      e.target ∈ assigned ∨
      ∃ j, j ≤ i ∧ ∃ lj, (Layered.bfsAux E assigned current).1[j]? = some lj ∧
        e.target ∈ lj := by
  induction assigned, current using Layered.bfsAux.induct E with
  | case1 assigned current st h =>
      intro i l e he hl hs
      rw [Layered.bfsAux, dif_pos h] at hl ⊢
      cases i with
      | zero =>
          rw [List.getElem?_cons_zero] at hl
          cases hl
          have ht := expandLayer_closure E current (assigned, []) e he hs
          rcases expandLayer_assigned_in_next E current (assigned, []) _ ht with h1 | h1
          · exact Or.inl h1
          · rw [h] at h1
            cases h1
      | succ i =>
          rw [List.getElem?_cons_succ] at hl
          simp at hl
  | case2 assigned current st h ih =>
      intro i l e he hl hs
      rw [Layered.bfsAux, dif_neg h] at hl ⊢
      cases i with
      | zero =>
          rw [List.getElem?_cons_zero] at hl
          cases hl
          have ht := expandLayer_closure E current (assigned, []) e he hs
          rcases expandLayer_assigned_in_next E current (assigned, []) _ ht with h1 | h1
          · exact Or.inl h1
          · exact Or.inr ⟨0, Nat.le_refl 0, _, List.getElem?_cons_zero, h1⟩
      | succ i =>
          rw [List.getElem?_cons_succ] at hl
          rcases ih i l e he hl hs with h1 | ⟨j, hj, lj, hlj, htj⟩
          · rcases expandLayer_assigned_in_next E current (assigned, []) _ h1 with h2 | h2
            · exact Or.inl h2
            · exact Or.inr ⟨0, Nat.zero_le _, _, List.getElem?_cons_zero, h2⟩
          · exact Or.inr ⟨j + 1, Nat.succ_le_succ hj, lj,
              by rw [List.getElem?_cons_succ]; exact hlj, htj⟩

theorem bfs_closed (E : List Edge) (assigned current : List String) :
    (∀ e ∈ E, e.source ∈ assigned → e.source ∈ current ∨ e.target ∈ assigned) →
    ∀ e ∈ E, e.source ∈ (Layered.bfsAux E assigned current).2 →
      e.target ∈ (Layered.bfsAux E assigned current).2 := by
  induction assigned, current using Layered.bfsAux.induct E with
  | case1 assigned current st h =>
      intro pre e he hs
      rw [Layered.bfsAux, dif_pos h] at hs ⊢
      rcases expandLayer_assigned_in_next E current (assigned, []) _ hs with h1 | h1
      · rcases pre e he h1 with h2 | h2
        · exact expandLayer_closure E current (assigned, []) e he h2
        · exact Layered.expandLayer_assigned_mono E current (assigned, []) _ h2
      · rw [h] at h1
        cases h1
  | case2 assigned current st h ih =>
      intro pre e he hs
      rw [Layered.bfsAux, dif_neg h] at hs ⊢
      refine ih ?_ e he hs
      intro e1 he1 hs1
      rcases expandLayer_assigned_in_next E current (assigned, []) _ hs1 with h1 | h1
      · rcases pre e1 he1 h1 with h2 | h2
        · exact Or.inr (expandLayer_closure E current (assigned, []) e1 he1 h2)
        · exact Or.inr
            (Layered.expandLayer_assigned_mono E current (assigned, []) _ h2)
      · exact Or.inl h1

theorem mem_rootsBase (g : Graph) (v : String) :
    v ∈ Layered.rootsBase g ↔ v ∈ g.nodeIds ∧ isRoot g v = true := by
  unfold Layered.rootsBase isRoot Graph.nodeIds
  constructor
  · intro h
    rcases List.mem_map.mp h with ⟨n, hn, hid⟩
    have hf := List.mem_filter.mp hn
    refine ⟨List.mem_map.mpr ⟨n, hf.1, hid⟩, ?_⟩
    rw [← hid]
    exact hf.2
  · intro h
    rcases List.mem_map.mp h.1 with ⟨n, hn, hid⟩
    refine List.mem_map.mpr ⟨n, List.mem_filter.mpr ⟨hn, ?_⟩, hid⟩
    rw [hid]
    exact h.2

theorem not_root_exists_edge (g : Graph) (v : String)
    (h : isRoot g v = false) : ∃ e ∈ g.edges, e.target = v := by
  unfold isRoot at h
  cases hc : g.edges.any (fun e => e.target == v) with
  | false => rw [hc] at h; simp at h
  | true =>
      rcases List.any_eq_true.mp hc with ⟨e, he, hbeq⟩
      exact ⟨e, he, by simpa using hbeq⟩

theorem bfs_complete (g : Graph) (hwf : WellFormedEdges g) (hac : Acyclic g) :
    ∀ v ∈ g.nodeIds,
      v ∈ (Layered.bfsAux g.edges (Layered.rootsBase g)
        (Layered.rootsBase g)).2 := by
  obtain ⟨f, hf⟩ := hac
  have hclosed := bfs_closed g.edges (Layered.rootsBase g) (Layered.rootsBase g)
    (fun e _ hs => Or.inl hs)
  suffices hmain : ∀ (n : Nat) (v : String), v ∈ g.nodeIds → f v < n →
      v ∈ (Layered.bfsAux g.edges (Layered.rootsBase g)
        (Layered.rootsBase g)).2 by
    intro v hv
    exact hmain (f v + 1) v hv (Nat.lt_succ_self _)
  intro n
  induction n with
  | zero => intro v _ hlt; cases Nat.not_lt_zero _ hlt
  | succ n ih =>
      intro v hv hlt
      cases hroot : isRoot g v with
      | true =>
          exact bfs_assigned_mono _ _ _ v ((mem_rootsBase g v).mpr ⟨hv, hroot⟩)
      | false =>
          obtain ⟨e, he, hte⟩ := not_root_exists_edge g v hroot
          have hlt2 : f e.source < n := by
            have hedge := hf e he
            rw [hte] at hedge
            omega
          have hsrc := ih e.source (hwf e he).1 hlt2
          have hres := hclosed e he hsrc
          rwa [hte] at hres

theorem exists_root_node (g : Graph) (hwf : WellFormedEdges g) (hac : Acyclic g)
    (hne : g.nodes ≠ []) : ∃ w ∈ g.nodeIds, isRoot g w = true := by
  obtain ⟨f, hf⟩ := hac
  have hmain : ∀ (n : Nat) (v : String), v ∈ g.nodeIds → f v < n →
      ∃ w ∈ g.nodeIds, isRoot g w = true := by
    intro n
    induction n with
    | zero => intro v _ hlt; cases Nat.not_lt_zero _ hlt
    | succ n ih =>
        intro v hv hlt
        cases hroot : isRoot g v with
        | true => exact ⟨v, hv, hroot⟩
        | false =>
            obtain ⟨e, he, hte⟩ := not_root_exists_edge g v hroot
            have hlt2 : f e.source < n := by
              have hedge := hf e he
              rw [hte] at hedge
              omega
            exact ih e.source (hwf e he).1 hlt2
  cases hnodes : g.nodes with
  | nil => exact absurd hnodes hne
  | cons n0 rest =>
      have hmem : n0.id ∈ g.nodeIds := by
        unfold Graph.nodeIds
        rw [hnodes]
        simp
      exact hmain (f n0.id + 1) n0.id hmem (Nat.lt_succ_self _)

theorem layerIdxOf_cons (l : List String) (ls : List (List String)) (v : String) :
    Layered.layerIdxOf (l :: ls) v =
      if v ∈ l then some 0
      else (Layered.layerIdxOf ls v).map (fun i => i + 1) := by
  unfold Layered.layerIdxOf
  rw [List.findIdx?_cons, List.findIdx?_succ]
  by_cases h : v ∈ l
  · have hc : l.contains v = true := by simpa using h
    rw [hc, if_pos rfl, if_pos h]
  · have hc : l.contains v = false := by simpa using h
    rw [hc, if_neg (by simp), if_neg h]

theorem layerIdxOf_first (v : String) :
    ∀ (layers : List (List String)) (i : Nat) (l : List String),
      layers[i]? = some l → v ∈ l →
      (∀ (j : Nat) (lj : List String), j < i → layers[j]? = some lj → v ∉ lj) →
      Layered.layerIdxOf layers v = some i := by
  intro layers
  induction layers with
  | nil => intro i l hl; simp at hl
  | cons l0 ls ih =>
      intro i l hl hv hfirst
      cases i with
      | zero =>
          rw [List.getElem?_cons_zero] at hl
          cases hl
          rw [layerIdxOf_cons, if_pos hv]
      | succ i =>
          rw [List.getElem?_cons_succ] at hl
          have hnot : v ∉ l0 :=
            hfirst 0 l0 (Nat.succ_pos _) List.getElem?_cons_zero
          rw [layerIdxOf_cons, if_neg hnot,
            ih i l hl hv (fun j lj hj hjl =>
              hfirst (j + 1) lj (Nat.succ_lt_succ hj)
                (by rw [List.getElem?_cons_succ]; exact hjl))]
          rfl

theorem layerIdxOf_mem (v : String) :
    ∀ (layers : List (List String)) (i : Nat),
      Layered.layerIdxOf layers v = some i →
      ∃ l, layers[i]? = some l ∧ v ∈ l := by
  intro layers
  induction layers with
  | nil => intro i h; simp [Layered.layerIdxOf] at h
  | cons l0 ls ih =>
      intro i h
      rw [layerIdxOf_cons] at h
      by_cases hv : v ∈ l0
      · rw [if_pos hv] at h
        have h0 := Option.some.inj h
        subst h0
        exact ⟨l0, List.getElem?_cons_zero, hv⟩
      · rw [if_neg hv] at h
        rcases Option.map_eq_some'.mp h with ⟨i0, hi0, hadd⟩
        subst hadd
        rcases ih i0 hi0 with ⟨l, hl, hvl⟩
        exact ⟨l, by rw [List.getElem?_cons_succ]; exact hl, hvl⟩

theorem mem_predSources (g : Graph) (e : Edge) (he : e ∈ g.edges) (v : String)
    (ht : e.target = v) : e.source ∈ predSources g v := by
  unfold predSources
  exact List.mem_map.mpr ⟨e, List.mem_filter.mpr ⟨he, by simp [ht]⟩, rfl⟩

theorem predSources_spec (g : Graph) (v p : String)
    (hp : p ∈ predSources g v) : ∃ e ∈ g.edges, e.target = v ∧ e.source = p := by
  unfold predSources at hp
  rcases List.mem_map.mp hp with ⟨e, hef, hsrc⟩
  have hf := List.mem_filter.mp hef
  exact ⟨e, hf.1, by simpa using hf.2, hsrc⟩

theorem ranking_layers_minPred (g : Graph) (hwf : WellFormedEdges g)
    (hac : Acyclic g) :
    minPredProp (Layered.rootsBase g ::
      (Layered.bfsAux g.edges (Layered.rootsBase g)
        (Layered.rootsBase g)).1) g := by
  intro v hv
  constructor
  · intro hroot
    have hvR : v ∈ Layered.rootsBase g := (mem_rootsBase g v).mpr ⟨hv, hroot⟩
    rw [layerIdxOf_cons, if_pos hvR]
  · intro hroot
    have hvnotR : v ∉ Layered.rootsBase g := by
      intro hc
      have hr := ((mem_rootsBase g v).mp hc).2
      rw [hroot] at hr
      exact Bool.noConfusion hr
    have hvA := bfs_complete g hwf hac v hv
    rcases bfs_final_sub g.edges (Layered.rootsBase g) (Layered.rootsBase g)
      v hvA with hc | ⟨l, hlmem, hvl⟩
    · exact absurd hc hvnotR
    rcases List.mem_iff_getElem.mp hlmem with ⟨i, hilen, higete⟩
    have hi : (Layered.bfsAux g.edges (Layered.rootsBase g)
        (Layered.rootsBase g)).1[i]? = some l := by
      rw [List.getElem?_eq_getElem hilen, higete]
    refine ⟨i, ?_, ?_, ?_⟩
    · -- v sits in layer i of the BFS tail, hence at index i+1 overall
      rw [layerIdxOf_cons, if_neg hvnotR,
        layerIdxOf_first v _ i l hi hvl (fun j lj hj hjl hvj =>
          bfs_layers_disjoint g.edges (Layered.rootsBase g)
            (Layered.rootsBase g) i j l lj hj hi hjl v hvl hvj)]
      rfl
    · -- some predecessor lies in the layer right above
      rcases bfs_pred_prev g.edges (Layered.rootsBase g) (Layered.rootsBase g)
        i l hi v hvl with ⟨lp, hlp, e, he, hte, hsrc⟩
      refine ⟨e.source, mem_predSources g e he v hte, ?_⟩
      cases i with
      | zero =>
          rw [List.getElem?_cons_zero] at hlp
          have hR := Option.some.inj hlp
          rw [layerIdxOf_cons, if_pos (hR ▸ hsrc)]
      | succ i0 =>
          rw [List.getElem?_cons_succ] at hlp
          have hnotR : e.source ∉ Layered.rootsBase g :=
            bfs_layers_fresh g.edges (Layered.rootsBase g)
              (Layered.rootsBase g) lp (List.getElem?_mem hlp) e.source hsrc
          rw [layerIdxOf_cons, if_neg hnotR,
            layerIdxOf_first e.source _ i0 lp hlp hsrc
              (fun j lj hj hjl hvj =>
                bfs_layers_disjoint g.edges (Layered.rootsBase g)
                  (Layered.rootsBase g) i0 j lp lj hj hlp hjl e.source hsrc hvj)]
          rfl
    · -- no predecessor lies strictly above layer i − 1
      intro p hp j hj
      rcases predSources_spec g v p hp with ⟨e, he, hte, hsrc⟩
      rcases layerIdxOf_mem p _ j hj with ⟨lp, hlp, hplp⟩
      cases j with
      | zero =>
          rw [List.getElem?_cons_zero] at hlp
          have hR := Option.some.inj hlp
          rcases bfs_succ_bound g.edges (Layered.rootsBase g)
            (Layered.rootsBase g) 0 (Layered.rootsBase g) e he
            List.getElem?_cons_zero (by rw [hsrc, hR]; exact hplp) with h1 | h1
          · rw [hte] at h1
            exact absurd h1 hvnotR
          · rcases h1 with ⟨j2, hj2, lj2, hlj2, htj2⟩
            rw [hte] at htj2
            have := bfs_layer_index_unique g.edges (Layered.rootsBase g)
              (Layered.rootsBase g) i j2 l lj2 hi hlj2 v hvl htj2
            omega
      | succ j0 =>
          rw [List.getElem?_cons_succ] at hlp
          rcases bfs_succ_bound g.edges (Layered.rootsBase g)
            (Layered.rootsBase g) (j0 + 1) lp e he
            (by rw [List.getElem?_cons_succ]; exact hlp)
            (by rw [hsrc]; exact hplp) with h1 | h1
          · rw [hte] at h1
            exact absurd h1 hvnotR
          · rcases h1 with ⟨j2, hj2, lj2, hlj2, htj2⟩
            rw [hte] at htj2
            have := bfs_layer_index_unique g.edges (Layered.rootsBase g)
              (Layered.rootsBase g) i j2 l lj2 hi hlj2 v hvl htj2
            omega

/-- C1 (amended): on a nonempty graph with well-formed edges and an acyclic
edge set, both rankers return the breadth-first layering
`roots :: bfsAux …`, which satisfies `minPredProp`: every root (node with no
incoming edge) gets layer index 0, and every other node gets layer index one
more than the **minimum** (not maximum) layer index of its predecessors.
KLay's `assign_layers` returns exactly the same layering as Dagre's
`longest_path_ranking`. -/
theorem layered_rankers_bfs (g : Graph) (hne : g.nodes ≠ [])
    (hwf : WellFormedEdges g) (hac : Acyclic g) :
    minPredProp (Dagre.longest_path_ranking g) g ∧
    Klay.assign_layers g = Dagre.longest_path_ranking g := by
  have hroots_ne : Layered.rootsBase g ≠ [] := by
    obtain ⟨w, hw, hroot⟩ := exists_root_node g hwf hac hne
    exact List.ne_nil_of_mem ((mem_rootsBase g w).mpr ⟨hw, hroot⟩)
  have hfall : Layered.withFallbackRoot g (Layered.rootsBase g) =
      Layered.rootsBase g := by
    unfold Layered.withFallbackRoot
    cases hcase : Layered.rootsBase g with
    | nil => exact absurd hcase hroots_ne
    | cons a l => simp
  have hrem : g.nodeIds.filter (fun id =>
      !((Layered.bfsAux g.edges (Layered.rootsBase g)
        (Layered.rootsBase g)).2.contains id)) = [] := by
    rw [List.filter_eq_nil_iff]
    intro a ha
    have hmem := bfs_complete g hwf hac a ha
    simp [hmem]
  have hdagre : Dagre.longest_path_ranking g =
      Layered.rootsBase g ::
        (Layered.bfsAux g.edges (Layered.rootsBase g)
          (Layered.rootsBase g)).1 := by
    unfold Dagre.longest_path_ranking
    rw [hfall]
    simp [hrem]
    exact bfs_complete g hwf hac
  have hklay : Klay.assign_layers g =
      Layered.rootsBase g ::
        (Layered.bfsAux g.edges (Layered.rootsBase g)
          (Layered.rootsBase g)).1 := by
    unfold Klay.assign_layers
    rw [hfall]
    have hne2 : (Layered.rootsBase g).isEmpty = false := by
      cases hcase : Layered.rootsBase g with
      | nil => exact absurd hcase hroots_ne
      | cons a l => rfl
    simp [hrem, hne2]
    have hrem2 : List.filter (fun id =>
        !decide (id ∈ (Layered.bfsAux g.edges (Layered.rootsBase g)
          (Layered.rootsBase g)).2)) g.nodeIds = [] := by
      rw [List.filter_eq_nil_iff]
      intro a ha
      simp [bfs_complete g hwf hac a ha]
    rw [hrem2]
    rfl
  rw [hdagre, hklay]
  exact ⟨ranking_layers_minPred g hwf hac, rfl⟩

/-- Witness for C1 at the diamond `A→B`, `B→C`, `A→C`: the hypotheses hold
concretely and the amended theorem applies. -/
theorem layered_rankers_bfs_witness :
    (diamondGraph.nodes ≠ [] ∧ WellFormedEdges diamondGraph ∧
      Acyclic diamondGraph) ∧
    minPredProp (Dagre.longest_path_ranking diamondGraph) diamondGraph ∧
    Klay.assign_layers diamondGraph =
      Dagre.longest_path_ranking diamondGraph := by
  have hne : diamondGraph.nodes ≠ [] := by simp [diamondGraph]
  have hwf : WellFormedEdges diamondGraph := by
    intro e he
    simp only [diamondGraph, mkEdge, List.mem_cons, List.not_mem_nil,
      or_false] at he
    rcases he with h | h | h <;> subst h <;>
      simp [Graph.nodeIds, diamondGraph, mkNode]
  have hac : Acyclic diamondGraph := by
    refine ⟨fun s => if s = "A" then 0 else if s = "B" then 1 else 2, ?_⟩
    intro e he
    simp only [diamondGraph, mkEdge, List.mem_cons, List.not_mem_nil,
      or_false] at he
    rcases he with h | h | h <;> subst h <;> decide
  exact ⟨⟨hne, hwf, hac⟩, layered_rankers_bfs diamondGraph hne hwf hac⟩

/-- C1 counterexample: the diamond `A→B`, `B→C`, `A→C` is acyclic and
well-formed, the code ranks it `[["A"], ["B", "C"]]` (breadth-first), and the
claimed max-of-predecessors rule fails: `C` has predecessors at layers 1
(`B`) and 0 (`A`), so the rule demands layer 2 for `C`, but the code puts it
at layer 1. -/
theorem max_pred_rule_fails_cex :
    Acyclic diamondGraph ∧ WellFormedEdges diamondGraph ∧
    Dagre.longest_path_ranking diamondGraph = [["A"], ["B", "C"]] ∧
    ¬ maxPredProp (Dagre.longest_path_ranking diamondGraph) diamondGraph := by
  have heval : Dagre.longest_path_ranking diamondGraph = [["A"], ["B", "C"]] := by
    simp [Dagre.longest_path_ranking, Layered.bfsAux, Layered.expandLayer,
      Layered.expandNode, Layered.rootsBase, Layered.withFallbackRoot,
      diamondGraph, mkNode, mkEdge, Graph.nodeIds]
  have hwf : WellFormedEdges diamondGraph := by
    intro e he
    simp only [diamondGraph, mkEdge, List.mem_cons, List.not_mem_nil,
      or_false] at he
    rcases he with h | h | h <;> subst h <;>
      simp [Graph.nodeIds, diamondGraph, mkNode]
  have hac : Acyclic diamondGraph := by
    refine ⟨fun s => if s = "A" then 0 else if s = "B" then 1 else 2, ?_⟩
    intro e he
    simp only [diamondGraph, mkEdge, List.mem_cons, List.not_mem_nil,
      or_false] at he
    rcases he with h | h | h <;> subst h <;> decide
  refine ⟨hac, hwf, heval, ?_⟩
  intro h
  rw [heval] at h
  have hCmem : "C" ∈ diamondGraph.nodeIds := by
    simp [Graph.nodeIds, diamondGraph, mkNode]
  have hCroot : isRoot diamondGraph "C" = false := by
    simp [isRoot, diamondGraph, mkEdge]
  have hC := (h "C" hCmem).2 hCroot
  simp [Layered.layerIdxOf, maxPredLayerIdx, predSources, diamondGraph,
    mkEdge, mkNode, List.findIdx?, layerIdxOf_cons] at hC

end GraphLayouts
